import Mathlib

/-!
Verification development for the transformer language model in `pt.py`:
a GPT variant with rotary position embeddings, cross-layer value mixing,
a U-Net-style encoder/decoder block stack with learned skip weights,
logit soft-capping, and an autoregressive generation loop.

Tensors are embedded as a shape list plus row-major data over `ℝ`;
real numbers model the floating-point values of the source, so precision
casts (`bfloat16`, `float`, `type_as`) are identities here.  Fallible
tensor operations (shape mismatches, index errors, popping an empty
list) return `Option`, with `none` embedding a raised runtime exception.
The mutable rotary phase cache is threaded explicitly through the
forward pass, and the stochastic `torch.multinomial` draw is an oracle
parameter of the generation loop.
-/

namespace PT

noncomputable section

/-- Flat tensor: dynamic shape plus row-major data. -/
@[ext]
structure Tensor where
  shape : List ℕ
  data : List ℝ

/-- Row-major linear index of a multi-index in a shape. -/
noncomputable def linIndex : List ℕ → List ℕ → ℕ
  | [], _ => 0
  | _, [] => 0
  | _ :: ds, i :: is => i * ds.prod + linIndex ds is

/-- Multi-index of a row-major linear position in a shape. -/
noncomputable def multiIndex : List ℕ → ℕ → List ℕ
  | [], _ => []
  | _ :: ds, n => n / ds.prod :: multiIndex ds (n % ds.prod)

/-- A multi-index is within bounds of a shape. -/
noncomputable def IdxOk (s ix : List ℕ) : Prop := List.Forall₂ (· < ·) ix s

noncomputable def Tensor.numel (t : Tensor) : ℕ := t.shape.prod

/-- Data length agrees with the shape. -/
noncomputable def Tensor.wf (t : Tensor) : Prop := t.data.length = t.shape.prod

/-- Element access at a multi-index (0 outside the data). -/
noncomputable def tGet (t : Tensor) (ix : List ℕ) : ℝ := t.data.getD (linIndex t.shape ix) 0

/-- Build a tensor of a given shape from an index function. -/
noncomputable def ofFn (s : List ℕ) (f : List ℕ → ℝ) : Tensor :=
  ⟨s, (List.range s.prod).map (fun n => f (multiIndex s n))⟩

/-- Broadcast two reversed shape lists (NumPy right-aligned rule). -/
noncomputable def bcastRev : List ℕ → List ℕ → Option (List ℕ)
  | [], ys => some ys
  | x :: xs, [] => some (x :: xs)
  | x :: xs, y :: ys => do
      let rest ← bcastRev xs ys
      if x = y then some (x :: rest)
      else if x = 1 then some (y :: rest)
      else if y = 1 then some (x :: rest)
      else none

/-- Broadcast two shapes, failing on incompatible dimensions. -/
noncomputable def bcastShapes (a b : List ℕ) : Option (List ℕ) :=
  (bcastRev a.reverse b.reverse).map List.reverse

/-- Project a multi-index of the broadcast shape onto an operand's index. -/
noncomputable def bproj (s ix : List ℕ) : List ℕ :=
  List.zipWith (fun i d => if d = 1 then 0 else i) (ix.drop (ix.length - s.length)) s

/-- Elementwise binary operation with broadcasting. -/
noncomputable def broadcastOp (f : ℝ → ℝ → ℝ) (a b : Tensor) : Option Tensor := do
  let s ← bcastShapes a.shape b.shape
  return ofFn s (fun ix => f (tGet a (bproj a.shape ix)) (tGet b (bproj b.shape ix)))

noncomputable def tMul (a b : Tensor) : Option Tensor := broadcastOp (· * ·) a b

noncomputable def tAdd (a b : Tensor) : Option Tensor := broadcastOp (· + ·) a b

/-- Elementwise map over a tensor's data. -/
noncomputable def tmap (f : ℝ → ℝ) (t : Tensor) : Tensor := ⟨t.shape, t.data.map f⟩

/-- Scalar multiplication. -/
noncomputable def smul (a : ℝ) (t : Tensor) : Tensor := tmap (fun z => a * z) t

/-- Elementwise negation. -/
noncomputable def tNeg (t : Tensor) : Tensor := tmap (fun z => -z) t

/-- Last coordinate of a multi-index. -/
noncomputable def idxLast (ix : List ℕ) : ℕ := ix.getLastD 0

/-- Replace the last coordinate of a multi-index. -/
noncomputable def setIdxLast (ix : List ℕ) (j : ℕ) : List ℕ := ix.dropLast ++ [j]

/-- `torch.Tensor.view`: reinterpret the data under a new shape of equal size. -/
noncomputable def view (t : Tensor) (s : List ℕ) : Option Tensor :=
  if t.shape.prod = s.prod then some ⟨s, t.data⟩ else none

noncomputable def dims3 (t : Tensor) : Option (ℕ × ℕ × ℕ) :=
  match t.shape with
  | [a, b, c] => some (a, b, c)
  | _ => none

noncomputable def dims4 (t : Tensor) : Option (ℕ × ℕ × ℕ × ℕ) :=
  match t.shape with
  | [a, b, c, d] => some (a, b, c, d)
  | _ => none

/-- `F.linear` without bias: contract the last axis against the rows of `W`. -/
noncomputable def linear (W : List (List ℝ)) (t : Tensor) : Option Tensor := do
  let n := t.shape.getLastD 0
  guard (t.shape ≠ [] ∧ ∀ r ∈ W, r.length = n)
  return ofFn (t.shape.dropLast ++ [W.length]) (fun ix =>
    (Finset.range n).sum (fun c => tGet t (setIdxLast ix c) * (W.getD (idxLast ix) []).getD c 0))

/-- `F.rms_norm(x, (x.size(-1),))`: scale each last-axis vector by the
reciprocal of its root-mean-square (exact arithmetic, no epsilon). -/
noncomputable def rmsNormLast (t : Tensor) : Tensor :=
  let n := t.shape.getLastD 0
  ofFn t.shape (fun ix =>
    tGet t ix / Real.sqrt (((Finset.range n).sum (fun j => tGet t (setIdxLast ix j) ^ 2)) / n))

/-- `x.transpose(1, 2)` on a rank-4 tensor. -/
noncomputable def transpose12 (t : Tensor) : Option Tensor := do
  let s ← dims4 t
  return ofFn [s.1, s.2.2.1, s.2.1, s.2.2.2] (fun ix =>
    tGet t [ix.getD 0 0, ix.getD 2 0, ix.getD 1 0, ix.getD 3 0])

/-- `x[..., :d]`: keep the first `d` entries of the last axis. -/
noncomputable def sliceLastTo (t : Tensor) (d : ℕ) : Tensor :=
  let n := t.shape.getLastD 0
  ofFn (t.shape.dropLast ++ [min d n]) (fun ix => tGet t ix)

/-- `x[..., d:]`: drop the first `d` entries of the last axis. -/
noncomputable def sliceLastFrom (t : Tensor) (d : ℕ) : Tensor :=
  let n := t.shape.getLastD 0
  ofFn (t.shape.dropLast ++ [n - d]) (fun ix => tGet t (setIdxLast ix (idxLast ix + d)))

/-- `torch.cat([a, b], 3)`: concatenate along dimension 3. -/
noncomputable def catDim3 (a b : Tensor) : Option Tensor := do
  guard (a.shape.length = b.shape.length ∧ 4 ≤ a.shape.length ∧
    a.shape.eraseIdx 3 = b.shape.eraseIdx 3)
  let a3 := a.shape.getD 3 0
  let b3 := b.shape.getD 3 0
  return ofFn (a.shape.set 3 (a3 + b3)) (fun ix =>
    if ix.getD 3 0 < a3 then tGet a ix else tGet b (ix.set 3 (ix.getD 3 0 - a3)))

/-- `F.scaled_dot_product_attention(q, k, v, is_causal=True)` on
`[B,H,T,D]` inputs: per (batch, head, query-position) softmax of scaled
dot-product scores over the causal (non-future) key positions, applied
to the value vectors. -/
noncomputable def sdpaCausal (q k v : Tensor) : Option Tensor := do
  let sq ← dims4 q
  let sk ← dims4 k
  let sv ← dims4 v
  guard (sk.1 = sq.1 ∧ sk.2.1 = sq.2.1 ∧ sk.2.2.2 = sq.2.2.2 ∧ sv.1 = sq.1 ∧
    sv.2.1 = sq.2.1 ∧ sv.2.2.1 = sk.2.2.1 ∧ sk.2.2.1 = sq.2.2.1)
  return ofFn [sq.1, sq.2.1, sq.2.2.1, sv.2.2.2] (fun ix =>
    let b := ix.getD 0 0
    let hh := ix.getD 1 0
    let i := ix.getD 2 0
    let c := ix.getD 3 0
    let w : ℕ → ℝ := fun j =>
      if j ≤ i then
        Real.exp (((Finset.range sq.2.2.2).sum
            (fun d => tGet q [b, hh, i, d] * tGet k [b, hh, j, d]))
          / Real.sqrt (sq.2.2.2 : ℝ))
      else 0
    let den := (Finset.range sq.2.2.1).sum w
    (Finset.range sq.2.2.1).sum (fun j => w j / den * tGet v [b, hh, j, c]))

/-- `30 * torch.tanh(logits / 30)`: the logit soft-cap. -/
noncomputable def softcap (t : Tensor) : Tensor := smul 30 (tmap Real.tanh (tmap (fun z => z / 30) t))

/-! ## Rotary positional phase cache -/

/-- Mutable state of the `Rotary` module: inverse frequencies fixed at
construction, plus the lazily cached cosine/sine tables keyed by the last
sequence length seen. -/
structure Rotary where
  inv_freq : List ℝ
  seq_len_cached : Option ℕ
  cos_cached : List (List ℝ)
  sin_cached : List (List ℝ)

/-- `Rotary.__init__`: `inv_freq[i] = 1 / base ** ((2 i) / dim)` for the
`⌈dim/2⌉` even offsets `0, 2, 4, …` below `dim`; empty cache. -/
noncomputable def rotaryInit (dim : ℕ) (base : ℝ) : Rotary :=
  ⟨(List.range ((dim + 1) / 2)).map (fun i => 1 / base ^ (((2 * i : ℕ) : ℝ) / (dim : ℝ))),
   none, [], []⟩

/-- `torch.outer(t, inv_freq)` for `t = arange(seqLen)`. -/
noncomputable def freqsFor (invf : List ℝ) (seqLen : ℕ) : List (List ℝ) :=
  (List.range seqLen).map (fun t : ℕ => invf.map (fun f => (t : ℝ) * f))

/-- Freshly computed cosine table for a sequence length. -/
noncomputable def freshCos (invf : List ℝ) (seqLen : ℕ) : List (List ℝ) :=
  (freqsFor invf seqLen).map (fun r => r.map Real.cos)

/-- Freshly computed sine table for a sequence length. -/
noncomputable def freshSin (invf : List ℝ) (seqLen : ℕ) : List (List ℝ) :=
  (freqsFor invf seqLen).map (fun r => r.map Real.sin)

/-- `Rotary.forward`: return cached tables when the sequence length
matches the cache key, otherwise recompute and overwrite the cache.
Returns the updated state along with the tables. -/
noncomputable def Rotary.forward (st : Rotary) (seqLen : ℕ) : Rotary × List (List ℝ) × List (List ℝ)
 :=
  if st.seq_len_cached = some seqLen then (st, st.cos_cached, st.sin_cached)
  else
    let c := freshCos st.inv_freq seqLen
    let s := freshSin st.inv_freq seqLen
    (⟨st.inv_freq, some seqLen, c, s⟩, c, s)

/-- `cos_cached[None, :, None, :]`: reshape a table to a `[1,T,1,L]` tensor. -/
noncomputable def tableTensor (tab : List (List ℝ)) : Tensor :=
  ⟨[1, tab.length, 1, (tab.head?.map List.length).getD 0], tab.flatten⟩

/-- `apply_rotary_emb(x, cos, sin)`: assert rank 4, split the last axis in
half, rotate the halves against the phase tables, and concatenate. -/
noncomputable def apply_rotary_emb (x cos sin : Tensor) : Option Tensor := do
  guard (x.shape.length = 4)
  let d := x.shape.getD 3 0 / 2
  let x1 := sliceLastTo x d
  let x2 := sliceLastFrom x d
  let a ← tMul x1 cos
  let b ← tMul x2 sin
  let y1 ← tAdd a b
  let a2 ← tMul x1 (tNeg sin)
  let b2 ← tMul x2 cos
  let y2 ← tAdd a2 b2
  catDim3 y1 y2

/-! ## Attention, MLP, block -/

/-- Parameters and rotary state of `CausalSelfAttention`. -/
structure CausalSelfAttention where
  n_head : ℕ
  n_embd : ℕ
  c_q : List (List ℝ)
  c_k : List (List ℝ)
  c_v : List (List ℝ)
  c_proj : List (List ℝ)
  lamb : ℝ
  rotary : Rotary

noncomputable def CausalSelfAttention.head_dim (p : CausalSelfAttention) : ℕ := p.n_embd / p.n_head

/-- Project with a weight matrix and view as `[B, T, n_head, head_dim]`. -/
noncomputable def proj4 (W : List (List ℝ)) (B T nh hd : ℕ) (x : Tensor) : Option Tensor := do
  let t ← linear W x
  view t [B, T, nh, hd]

/-- `CausalSelfAttention.forward(x, v1)`: project to q/k/v, seed or keep
the cross-layer value state `v1`, blend the value tensor with it, rotate
the RMS-normalized queries and keys, run causal attention, and project
the output.  Returns `(output, v1, updated module)`. -/
noncomputable def CausalSelfAttention.forward (p : CausalSelfAttention) (x : Tensor)
    (v1in : Option Tensor) : Option (Tensor × Tensor × CausalSelfAttention) := do
  let d3 ← dims3 x
  let q ← proj4 p.c_q d3.1 d3.2.1 p.n_head p.head_dim x
  let k ← proj4 p.c_k d3.1 d3.2.1 p.n_head p.head_dim x
  let v ← proj4 p.c_v d3.1 d3.2.1 p.n_head p.head_dim x
  let v1 := v1in.getD v
  let v1v ← view v1 v.shape
  let vb ← tAdd (smul (1 - p.lamb) v) (smul p.lamb v1v)
  let r := Rotary.forward p.rotary d3.2.1
  let cosT := tableTensor r.2.1
  let sinT := tableTensor r.2.2
  let qn := rmsNormLast q
  let kn := rmsNormLast k
  let qr ← apply_rotary_emb qn cosT sinT
  let kr ← apply_rotary_emb kn cosT sinT
  let qt ← transpose12 qr
  let kt ← transpose12 kr
  let vt ← transpose12 vb
  let y ← sdpaCausal qt kt vt
  let yt ← transpose12 y
  let ym ← view yt x.shape
  let out ← linear p.c_proj ym
  return (out, v1, { p with rotary := r.1 })

/-- Parameters of the feed-forward sublayer. -/
structure MLP where
  c_fc : List (List ℝ)
  c_proj : List (List ℝ)

/-- `MLP.forward`: expand, squared ReLU, contract. -/
noncomputable def MLP.forward (p : MLP) (x : Tensor) : Option Tensor := do
  let a ← linear p.c_fc x
  let b := tmap (fun z => max z 0 ^ 2) a
  linear p.c_proj b

/-- A transformer block: attention plus MLP with the 2-vector residual gate. -/
structure Block where
  attn : CausalSelfAttention
  mlp : MLP
  lambdas : List ℝ

/-- `Block.forward(x, v1, x0)`: gate the activation against the initial
embedding, run attention on the normalized result, then the MLP, each with
a residual connection.  Returns `(x, v1, updated block)`. -/
noncomputable def Block.forward (bl : Block) (x : Tensor) (v1 : Option Tensor) (x0 : Tensor) :
    Option (Tensor × Tensor × Block) := do
  let l0 ← bl.lambdas.get? 0
  let l1 ← bl.lambdas.get? 1
  let xg ← tAdd (smul l0 x) (smul l1 x0)
  let a ← bl.attn.forward (rmsNormLast xg) v1
  let x2 ← tAdd xg a.1
  let x3 ← (MLP.forward bl.mlp (rmsNormLast x2))
  let x4 ← tAdd x2 x3
  return (x4, a.2.1, { bl with attn := a.2.2 })

/-! ## The GPT model -/

structure GPTConfig where
  vocab_size : ℕ
  n_layer : ℕ
  n_head : ℕ
  n_embd : ℕ

/-- Parameters of the model: embedding table, block list, per-decoder-layer
skip weights, output head. -/
structure GPT where
  config : GPTConfig
  wte : List (List ℝ)
  h : List Block
  skip_weights : List ℝ
  lm_head : List (List ℝ)

/-- `n_layer // 2`: the encoder half (smaller on odd `n_layer`). -/
noncomputable def GPT.encoder_layers (m : GPT) : ℕ := m.config.n_layer / 2

/-- The remaining blocks form the decoder half. -/
noncomputable def GPT.decoder_layers (m : GPT) : ℕ := m.config.n_layer - m.encoder_layers

/-- Pop the most recent entry of the skip-connection stack
(`skip_connections.pop()`), failing on an empty stack. -/
noncomputable def popLast {α : Type} (l : List α) : Option (α × List α) :=
  match l.getLast? with
  | none => none
  | some x => some (x, l.dropLast)

/-- Embedding lookup `wte(idx)`: the token tensor must be rectangular and
every id must be a valid row of the table. -/
noncomputable def embed (wte : List (List ℝ)) (nEmbd : ℕ) (idx : List (List ℕ)) : Option Tensor := do
  let T := ((idx.head?).map List.length).getD 0
  guard (∀ r ∈ idx, r.length = T)
  let rows ← idx.mapM (fun r => r.mapM (fun t => wte.get? t))
  return ⟨[idx.length, T, nEmbd], (rows.map List.flatten).flatten⟩

/-- Encoder pass: run `count` blocks starting at index `i`, threading the
activation and value state and pushing each output onto the skip stack. -/
noncomputable def runEncoder (x0 : Tensor) : ℕ → ℕ → List Block → Tensor → Option Tensor →
    List Tensor → Option (Tensor × Option Tensor × List Tensor × List Block)
  | 0, _, hs, x, v1, skips => some (x, v1, skips, hs)
  | c + 1, i, hs, x, v1, skips => do
      let b ← hs.get? i
      let r ← Block.forward b x v1 x0
      runEncoder x0 c (i + 1) (hs.set i r.2.2) r.1 (some r.2.1) (skips ++ [r.1])

/-- Decoder pass: at each step pop the most recent skip entry, scale it by
`skip_weights[i]`, add it to the activation, and run block `off + i`. -/
noncomputable def runDecoder (x0 : Tensor) (off : ℕ) (sw : List ℝ) : ℕ → ℕ → List Block → Tensor →
    Option Tensor → List Tensor → Option (Tensor × Option Tensor × List Block)
  | 0, _, hs, x, v1, _ => some (x, v1, hs)
  | c + 1, i, hs, x, v1, skips => do
      let pr ← popLast skips
      let w ← sw.get? i
      let b ← hs.get? (off + i)
      let xs ← tAdd x (smul w pr.1)
      let r ← Block.forward b xs v1 x0
      runDecoder x0 off sw c (i + 1) (hs.set (off + i) r.2.2) r.1 (some r.2.1) pr.2

/-- `GPT.forward(idx)` (inference path, no target): embed and normalize,
run the encoder half collecting skip connections, run the decoder half
consuming them in reverse, normalize, project to the vocabulary, and
soft-cap the logits.  Returns the logits and the model with its updated
rotary caches. -/
noncomputable def GPT.forward (m : GPT) (idx : List (List ℕ)) : Option (Tensor × GPT) := do
  let emb ← embed m.wte m.config.n_embd idx
  let x := rmsNormLast emb
  let x0 := x
  let (x1, v1, skips, h1) ← runEncoder x0 m.encoder_layers 0 m.h x none []
  let (x2, _, h2) ← runDecoder x0 m.encoder_layers m.skip_weights m.decoder_layers 0 h1 x1 v1 skips
  let xf := rmsNormLast x2
  let lg ← linear m.lm_head xf
  return (softcap lg, { m with h := h2 })

/-! ## Generation -/

/-- `logits[:, -1, :]`: the last time step's logit row for every batch
entry; fails on an empty time axis or a non-rank-3 tensor. -/
noncomputable def lastTimeRows (t : Tensor) : Option (List (List ℝ)) := do
  let s ← dims3 t
  if s.2.1 = 0 then none
  else return (List.range s.1).map (fun b =>
    (List.range s.2.2).map (fun v => tGet t [b, s.2.1 - 1, v]))

/-- `idx[0].unique()` as an index set. -/
noncomputable def uniqueTokens (row : List ℕ) : List ℕ := row.dedup

/-- Repetition penalty: build a per-entry penalty factor (`rp` at token ids
seen in the FIRST batch row, 1 elsewhere) and divide the logits by it. -/
noncomputable def applyRepeatPenalty (idx : List (List ℕ)) (rp : ℝ) (rows : List (List ℝ)) :
    Option (List (List ℝ)) := do
  let first ← idx.head?
  let ctx := uniqueTokens first
  let pen := rows.map (fun row => row.mapIdx (fun tId _ => if tId ∈ ctx then rp else 1))
  return List.zipWith (List.zipWith (fun l p => l / p)) rows pen

/-- Top-k filter on one logit row: find the `min k n`-th largest value and
mask every strictly smaller entry to `-inf` (embedded as `none`); fails
when `min k n = 0` (indexing into an empty `topk` result). -/
noncomputable def topKFilterRow (k : ℕ) (row : List ℝ) : Option (List (Option ℝ)) :=
  let kk := min k row.length
  if kk = 0 then none
  else
    match ((List.insertionSort (· ≤ ·) row).reverse).get? (kk - 1) with
    | none => none
    | some thr => some (row.map (fun x => if x < thr then none else some x))

/-- Optional top-k filtering of every row; without `top_k` all entries stay
finite. -/
noncomputable def applyTopK (topK : Option ℕ) (rows : List (List ℝ)) :
    Option (List (List (Option ℝ))) :=
  match topK with
  | none => some (rows.map (fun r => r.map some))
  | some k => rows.mapM (topKFilterRow k)

/-- `exp` on a possibly masked logit; a masked entry (`-inf`) contributes 0. -/
noncomputable def expMasked (o : Option ℝ) : ℝ :=
  match o with
  | none => 0
  | some x => Real.exp x

/-- `F.softmax` over one (possibly masked) logit row. -/
noncomputable def softmaxMasked (l : List (Option ℝ)) : List ℝ :=
  let s := (l.map expMasked).sum
  l.map (fun o => expMasked o / s)

/-- The `if repeat_penalty > 1.0:` conditional of `GPT.generate`: apply
the penalty only when `repeat_penalty` exceeds 1, otherwise keep the rows. -/
noncomputable def penaltyStep (idx : List (List ℕ)) (rp : ℝ) (rows : List (List ℝ)) :
    Option (List (List ℝ)) :=
  if 1 < rp then applyRepeatPenalty idx rp rows else some rows

/-- The `if idx_next == eos` test: comparing a tensor against a scalar
only yields a boolean when the tensor has exactly one entry, so a batch of
any other size raises (`none`). -/
noncomputable def soleEntry {α : Type} (l : List α) : Option α :=
  match l with
  | [t] => some t
  | _ => none

/-- One step plus the remaining loop of `GPT.generate`: forward pass, last
time step, temperature, repetition penalty, top-k, softmax, a sample drawn
by the `sampler` oracle, append, and the end-of-sequence check (which,
like the source's `if idx_next == eos`, only evaluates for a single batch
row).  `fuel` counts the remaining iterations of the `for` loop. -/
noncomputable def genLoop (sampler : ℕ → List ℝ → ℕ) (temperature : ℝ) (topK : Option ℕ)
    (rp : ℝ) (eos : ℤ) : ℕ → GPT → List (List ℕ) → Option (List (List ℕ))
  | 0, _, idx => some idx
  | fuel + 1, m, idx => do
      let lm ← m.forward idx
      let rows0 ← lastTimeRows lm.1
      let rows1 := rows0.map (fun r => r.map (fun z => z / temperature))
      let rows2 ← penaltyStep idx rp rows1
      let rowsF ← applyTopK topK rows2
      let probs := rowsF.map softmaxMasked
      let next := probs.map (sampler fuel)
      let idx2 := List.zipWith (fun row t => row ++ [t]) idx next
      let t ← soleEntry next
      if (t : ℤ) = eos then some idx2
      else genLoop sampler temperature topK rp eos fuel lm.2 idx2

/-- `GPT.generate`: run the sampling loop for `max_new_tokens` steps,
returning the extended sequence. -/
noncomputable def GPT.generate (m : GPT) (sampler : ℕ → List ℝ → ℕ) (idx : List (List ℕ))
    (max_new_tokens : ℕ) (temperature : ℝ) (topK : Option ℕ) (rp : ℝ) (eos : ℤ) :
    Option (List (List ℕ)) :=
  genLoop sampler temperature topK rp eos max_new_tokens m idx

end

end PT

namespace PT

/-! ## Index bookkeeping lemmas -/

theorem linIndex_lt_prod {s : List ℕ} : ∀ {ix}, IdxOk s ix → linIndex s ix < s.prod := by
  induction s with
  | nil =>
      intro ix h
      cases h
      simp [linIndex]
  | cons d ds ih =>
      intro ix h
      cases h with
      | cons h1 h2 =>
          rename_i i is
          have ihh := ih h2
          simp only [linIndex, List.prod_cons]
          calc i * ds.prod + linIndex ds is
              < i * ds.prod + ds.prod := by omega
            _ = (i + 1) * ds.prod := by ring
            _ ≤ d * ds.prod := Nat.mul_le_mul_right _ h1

theorem multiIndex_linIndex {s : List ℕ} : ∀ {ix}, IdxOk s ix →
    multiIndex s (linIndex s ix) = ix := by
  induction s with
  | nil =>
      intro ix h
      cases h
      simp [multiIndex]
  | cons d ds ih =>
      intro ix h
      cases h with
      | cons h1 h2 =>
          rename_i i is
          have hL : linIndex ds is < ds.prod := linIndex_lt_prod h2
          have hP : 0 < ds.prod := by omega
          simp only [linIndex, multiIndex]
          have hdiv : (i * ds.prod + linIndex ds is) / ds.prod = i := by
            rw [Nat.add_comm, Nat.add_mul_div_right _ _ hP, Nat.div_eq_of_lt hL, Nat.zero_add]
          have hmod : (i * ds.prod + linIndex ds is) % ds.prod = linIndex ds is := by
            rw [Nat.add_comm, Nat.add_mul_mod_self_right, Nat.mod_eq_of_lt hL]
          rw [hdiv, hmod, ih h2]

theorem linIndex_multiIndex {s : List ℕ} : ∀ {n}, n < s.prod →
    linIndex s (multiIndex s n) = n := by
  induction s with
  | nil =>
      intro n h
      simp only [List.prod_nil] at h
      simp only [multiIndex, linIndex]
      omega
  | cons d ds ih =>
      intro n h
      have hP : 0 < ds.prod := by
        rcases Nat.eq_zero_or_pos ds.prod with h0 | h0
        · rw [List.prod_cons, h0, Nat.mul_zero] at h
          omega
        · exact h0
      simp only [multiIndex, linIndex]
      rw [ih (Nat.mod_lt _ hP), Nat.mul_comm]
      exact Nat.div_add_mod n ds.prod

theorem ofFn_shape (s : List ℕ) (f : List ℕ → ℝ) : (ofFn s f).shape = s := rfl

theorem ofFn_wf (s : List ℕ) (f : List ℕ → ℝ) : (ofFn s f).wf := by
  simp [Tensor.wf, ofFn]

theorem tGet_ofFn {s ix : List ℕ} {f : List ℕ → ℝ} (h : IdxOk s ix) :
    tGet (ofFn s f) ix = f ix := by
  have hlt := linIndex_lt_prod h
  simp only [tGet, ofFn]
  rw [List.getD_eq_getElem?_getD, List.getElem?_map, List.getElem?_range hlt]
  simp [multiIndex_linIndex h]

theorem ofFn_tGet_self {t : Tensor} (h : t.wf) : ofFn t.shape (tGet t) = t := by
  have hl : t.data.length = t.shape.prod := h
  apply Tensor.ext
  · rfl
  · apply List.ext_getElem
    · simp [ofFn, hl]
    · intro i h1 h2
      simp only [ofFn, List.getElem_map, List.getElem_range, tGet]
      have hi : i < t.shape.prod := by simpa [ofFn] using h1
      rw [linIndex_multiIndex hi]
      exact List.getD_eq_getElem _ _ (by omega)

end PT

namespace PT

/-! ## Option plumbing helpers and loop unfolding lemmas -/

theorem bindNoneAll {α β : Type} {o : Option α} {f : α → Option β}
    (h : ∀ a, f a = none) : o.bind f = none := by
  cases o <;> simp [h]

theorem popLast_eq_some {α : Type} {l : List α} {a : α} {r : List α}
    (h : popLast l = some (a, r)) : r = l.dropLast ∧ l ≠ [] := by
  unfold popLast at h
  cases hl : l.getLast? with
  | none => rw [hl] at h; cases h
  | some x =>
      rw [hl] at h
      simp only [Option.some.injEq, Prod.mk.injEq] at h
      refine ⟨h.2.symm, ?_⟩
      intro hnil
      subst hnil
      simp at hl

theorem runEncoder_zero (x0 : Tensor) (i : ℕ) (hs : List Block) (x : Tensor)
    (v1 : Option Tensor) (skips : List Tensor) :
    runEncoder x0 0 i hs x v1 skips = some (x, v1, skips, hs) := rfl

theorem runEncoder_succ (x0 : Tensor) (c i : ℕ) (hs : List Block) (x : Tensor)
    (v1 : Option Tensor) (skips : List Tensor) :
    runEncoder x0 (c + 1) i hs x v1 skips =
      (hs.get? i).bind (fun b => (Block.forward b x v1 x0).bind (fun r =>
        runEncoder x0 c (i + 1) (hs.set i r.2.2) r.1 (some r.2.1) (skips ++ [r.1]))) := rfl

theorem runDecoder_zero (x0 : Tensor) (off : ℕ) (sw : List ℝ) (i : ℕ)
    (hs : List Block) (x : Tensor) (v1 : Option Tensor) (skips : List Tensor) :
    runDecoder x0 off sw 0 i hs x v1 skips = some (x, v1, hs) := rfl

theorem runDecoder_succ (x0 : Tensor) (off : ℕ) (sw : List ℝ) (c i : ℕ)
    (hs : List Block) (x : Tensor) (v1 : Option Tensor) (skips : List Tensor) :
    runDecoder x0 off sw (c + 1) i hs x v1 skips =
      (popLast skips).bind (fun pr => (sw.get? i).bind (fun w =>
        (hs.get? (off + i)).bind (fun b => (tAdd x (smul w pr.1)).bind (fun xs =>
          (Block.forward b xs v1 x0).bind (fun r =>
            runDecoder x0 off sw c (i + 1) (hs.set (off + i) r.2.2) r.1 (some r.2.1) pr.2))))) :=
  rfl

theorem GPT.forward_eq (m : GPT) (idx : List (List ℕ)) :
    GPT.forward m idx =
      (embed m.wte m.config.n_embd idx).bind (fun emb =>
        (runEncoder (rmsNormLast emb) m.encoder_layers 0 m.h (rmsNormLast emb) none []).bind
          (fun er =>
            (runDecoder (rmsNormLast emb) m.encoder_layers m.skip_weights m.decoder_layers 0
                er.2.2.2 er.1 er.2.1 er.2.2.1).bind (fun dr =>
              (linear m.lm_head (rmsNormLast dr.1)).bind (fun lg =>
                some (softcap lg, { m with h := dr.2.2 }))))) := rfl

/-! ## Shape of the skip stack through the encoder and decoder loops -/

theorem runEncoder_skips_length (x0 : Tensor) :
    ∀ (c : ℕ) {i : ℕ} {hs : List Block} {x : Tensor} {v1 : Option Tensor}
      {skips : List Tensor} {res : Tensor × Option Tensor × List Tensor × List Block},
      runEncoder x0 c i hs x v1 skips = some res →
      res.2.2.1.length = skips.length + c := by
  intro c
  induction c with
  | zero =>
      intro i hs x v1 skips res he
      rw [runEncoder_zero] at he
      injection he with he2
      rw [← he2]
      simp
  | succ c ih =>
      intro i hs x v1 skips res he
      rw [runEncoder_succ, Option.bind_eq_some] at he
      obtain ⟨b, hb, he⟩ := he
      rw [Option.bind_eq_some] at he
      obtain ⟨r, hf, he⟩ := he
      have := ih he
      simp only [List.length_append, List.length_cons, List.length_nil] at this
      omega

theorem runDecoder_none_of_short (x0 : Tensor) (off : ℕ) (sw : List ℝ) :
    ∀ (c : ℕ) {i : ℕ} {hs : List Block} {x : Tensor} {v1 : Option Tensor}
      {skips : List Tensor}, skips.length < c →
      runDecoder x0 off sw c i hs x v1 skips = none := by
  intro c
  induction c with
  | zero =>
      intro i hs x v1 skips hl
      exact absurd hl (Nat.not_lt_zero _)
  | succ c ih =>
      intro i hs x v1 skips hl
      rw [runDecoder_succ]
      cases hp : popLast skips with
      | none => simp
      | some pr =>
          obtain ⟨sk, rest⟩ := pr
          obtain ⟨hrest, hne⟩ := popLast_eq_some hp
          have hlen : rest.length < c := by
            have h1 : skips.length ≠ 0 := by
              intro h0
              exact hne (List.eq_nil_of_length_eq_zero h0)
            rw [hrest, List.length_dropLast]
            omega
          rw [Option.some_bind]
          apply bindNoneAll
          intro w
          apply bindNoneAll
          intro b
          apply bindNoneAll
          intro xs
          apply bindNoneAll
          intro r
          exact ih hlen

end PT

namespace PT

/-! ## A concrete one-layer model (odd layer count) -/

/-- An empty rotary cache with no frequencies. -/
noncomputable def rotary0 : Rotary := ⟨[], none, [], []⟩

/-- A minimal attention module: one head, one channel, zero weights. -/
noncomputable def attn0 : CausalSelfAttention := ⟨1, 1, [[0]], [[0]], [[0]], [[0]], 1 / 2, rotary0⟩

/-- A minimal feed-forward module. -/
noncomputable def mlp0 : MLP := ⟨[[0], [0], [0], [0]], [[0, 0, 0, 0]]⟩

/-- A minimal transformer block. -/
noncomputable def block0 : Block := ⟨attn0, mlp0, [1, 0]⟩

/-- A concrete model with `n_layer = 1` (odd): one block, vocabulary size 1,
one embedding channel. -/
noncomputable def gptOdd : GPT := ⟨⟨1, 1, 1, 1⟩, [[0]], [block0], [1], [[0]]⟩

end PT

namespace PT

/-- C4: the claim asserts that for every odd `n_layer` the forward pass
completes without error.  It does not: with `n_layer = 1` (encoder 0
blocks, decoder 1 block) the decoder's first step pops an empty
skip-connection stack, and the forward pass fails. -/
theorem claim_C4_counterexample : GPT.forward gptOdd [[0]] = none := rfl

/-- C4 (amended): for every odd `n_layer` the split is by integer
division — the encoder gets `n_layer / 2` blocks (the smaller half) and
the decoder the remaining `n_layer - n_layer / 2` — but the forward pass
always fails, because the decoder runs one more step than the encoder
pushed skip entries. -/
theorem claim_C4_amended :
    (∀ m : GPT, m.encoder_layers = m.config.n_layer / 2 ∧
      m.decoder_layers = m.config.n_layer - m.config.n_layer / 2) ∧
    (∀ (m : GPT) (idx : List (List ℕ)), Odd m.config.n_layer →
      GPT.forward m idx = none) := by
  constructor
  · intro m
    exact ⟨rfl, rfl⟩
  · intro m idx hodd
    rw [GPT.forward_eq]
    cases he : embed m.wte m.config.n_embd idx with
    | none => simp
    | some emb =>
        rw [Option.some_bind]
        cases hr : runEncoder (rmsNormLast emb) m.encoder_layers 0 m.h (rmsNormLast emb)
            none [] with
        | none => simp
        | some er =>
            rw [Option.some_bind]
            have hlen := runEncoder_skips_length (rmsNormLast emb) m.encoder_layers hr
            have hlt : er.2.2.1.length < m.decoder_layers := by
              obtain ⟨kk, hk⟩ := hodd
              simp only [List.length_nil, Nat.zero_add] at hlen
              simp only [GPT.encoder_layers] at hlen
              simp only [GPT.decoder_layers, GPT.encoder_layers]
              omega
            rw [runDecoder_none_of_short _ _ _ _ hlt]
            rfl

/-- C4 witness: the amended theorem applied to the concrete one-layer
model. -/
theorem claim_C4_witness :
    Odd gptOdd.config.n_layer ∧ GPT.forward gptOdd [[1]] = none :=
  ⟨⟨0, rfl⟩, claim_C4_amended.2 gptOdd [[1]] ⟨0, rfl⟩⟩

end PT

namespace PT

/-- C6: the positional phase cache recomputes iff the queried length
differs from the cached one.  Conjuncts: (1) a call at the cached length
returns the cached tables and leaves the state unchanged; (2) a call at
any other length returns freshly computed tables and re-keys the cache;
(3) two consecutive calls at the same length agree (the second is served
from the cache); (4) after the call sequence 8, 16, 8 the third call's
tables are freshly recomputed for length 8 (not stale from the first
call); (5) the fresh tables of a module built with head dimension `dim`
and base `base` realize `angles[t][i] = t * base ^ (-2 i / dim)`. -/
theorem claim_C6 :
    (∀ (st : Rotary) (L : ℕ), st.seq_len_cached = some L →
      Rotary.forward st L = (st, st.cos_cached, st.sin_cached)) ∧
    (∀ (st : Rotary) (L : ℕ), st.seq_len_cached ≠ some L →
      Rotary.forward st L =
        (⟨st.inv_freq, some L, freshCos st.inv_freq L, freshSin st.inv_freq L⟩,
         freshCos st.inv_freq L, freshSin st.inv_freq L)) ∧
    (∀ (st : Rotary) (L : ℕ),
      Rotary.forward (Rotary.forward st L).1 L = Rotary.forward st L) ∧
    (∀ st : Rotary,
      (Rotary.forward (Rotary.forward (Rotary.forward st 8).1 16).1 8).2 =
        (freshCos st.inv_freq 8, freshSin st.inv_freq 8)) ∧
    (∀ (dim : ℕ) (base : ℝ) (L t i : ℕ), 0 < base → t < L → i < (dim + 1) / 2 →
      ((freqsFor (rotaryInit dim base).inv_freq L).getD t []).getD i 0 =
        (t : ℝ) * base ^ (-(((2 * i : ℕ) : ℝ) / (dim : ℝ)))) := by
  refine ⟨?_, ?_, ?_, ?_, ?_⟩
  · intro st L h
    simp [Rotary.forward, h]
  · intro st L h
    simp [Rotary.forward, h]
  · intro st L
    by_cases h : st.seq_len_cached = some L <;> simp [Rotary.forward, h]
  · intro st
    by_cases h : st.seq_len_cached = some 8 <;> simp [Rotary.forward, h]
  · intro dim base L t i hb ht hi
    have hfl : ((freqsFor (rotaryInit dim base).inv_freq L).getD t []) =
        (rotaryInit dim base).inv_freq.map (fun f => (t : ℝ) * f) := by
      rw [freqsFor, List.getD_eq_getElem?_getD, List.getElem?_map, List.getElem?_range ht]
      rfl
    rw [hfl, rotaryInit]
    have hlen : i < (List.range ((dim + 1) / 2)).length := by
      simpa using hi
    rw [List.map_map, List.getD_eq_getElem?_getD, List.getElem?_map,
      List.getElem?_range (by simpa using hi)]
    simp only [Option.map_some', Option.getD_some, Function.comp_apply]
    rw [Real.rpow_neg hb.le, one_div]

end PT

namespace PT

/-- C6 witness: the cache-hit, cache-miss, and angle-formula parts of the
claim theorem applied at concrete states and indices. -/
theorem claim_C6_witness :
    Rotary.forward ⟨[], some 8, [], []⟩ 8 = (⟨[], some 8, [], []⟩, [], []) ∧
    Rotary.forward rotary0 8 =
      (⟨[], some 8, freshCos [] 8, freshSin [] 8⟩, freshCos [] 8, freshSin [] 8) ∧
    ((freqsFor (rotaryInit 2 10000).inv_freq 1).getD 0 []).getD 0 0 =
      ((0 : ℕ) : ℝ) * 10000 ^ (-(((2 * 0 : ℕ) : ℝ) / ((2 : ℕ) : ℝ))) :=
  ⟨claim_C6.1 _ 8 rfl, claim_C6.2.1 rotary0 8 (by simp [rotary0]),
   claim_C6.2.2.2.2 2 10000 1 0 0 (by norm_num) (by norm_num) (by norm_num)⟩

end PT

namespace PT

/-! ## Value-state threading (claim C1) -/

theorem attn_forward_eq (p : CausalSelfAttention) (x : Tensor)
    (v1in : Option Tensor) :
    CausalSelfAttention.forward p x v1in =
      (dims3 x).bind (fun d =>
      (proj4 p.c_q d.1 d.2.1 p.n_head p.head_dim x).bind (fun q =>
      (proj4 p.c_k d.1 d.2.1 p.n_head p.head_dim x).bind (fun k =>
      (proj4 p.c_v d.1 d.2.1 p.n_head p.head_dim x).bind (fun v =>
      (view (v1in.getD v) v.shape).bind (fun v1v =>
      (tAdd (smul (1 - p.lamb) v) (smul p.lamb v1v)).bind (fun vb =>
      (apply_rotary_emb (rmsNormLast q) (tableTensor (Rotary.forward p.rotary d.2.1).2.1)
          (tableTensor (Rotary.forward p.rotary d.2.1).2.2)).bind (fun qr =>
      (apply_rotary_emb (rmsNormLast k) (tableTensor (Rotary.forward p.rotary d.2.1).2.1)
          (tableTensor (Rotary.forward p.rotary d.2.1).2.2)).bind (fun kr =>
      (transpose12 qr).bind (fun qt =>
      (transpose12 kr).bind (fun kt =>
      (transpose12 vb).bind (fun vt =>
      (sdpaCausal qt kt vt).bind (fun y =>
      (transpose12 y).bind (fun yt =>
      (view yt x.shape).bind (fun ym =>
      (linear p.c_proj ym).bind (fun out =>
      some (out, v1in.getD v,
        { p with rotary := (Rotary.forward p.rotary d.2.1).1 })))))))))))))))) := rfl

theorem block_forward_eq (bl : Block) (x : Tensor) (v1 : Option Tensor) (x0 : Tensor) :
    Block.forward bl x v1 x0 =
      (bl.lambdas.get? 0).bind (fun l0 => (bl.lambdas.get? 1).bind (fun l1 =>
        (tAdd (smul l0 x) (smul l1 x0)).bind (fun xg =>
          (CausalSelfAttention.forward bl.attn (rmsNormLast xg) v1).bind (fun a =>
            (tAdd xg a.1).bind (fun x2 =>
              (MLP.forward bl.mlp (rmsNormLast x2)).bind (fun x3 =>
                (tAdd x2 x3).bind (fun x4 =>
                  some (x4, a.2.1, { bl with attn := a.2.2 })))))))) := rfl

/-- The raw (unblended) value projection `c_v(x).view(B,T,H,Dh)` of an
attention sublayer on input `x` — the value state that seeds `v1`. -/
noncomputable def rawValueState (p : CausalSelfAttention) (x : Tensor) : Option Tensor :=
  (dims3 x).bind (fun d => proj4 p.c_v d.1 d.2.1 p.n_head p.head_dim x)

/-- The attention call made inside `Block.forward` (gated residual then
normalization then attention). -/
noncomputable def blockAttnCall (bl : Block) (x : Tensor) (v1 : Option Tensor) (x0 : Tensor) :
    Option (Tensor × Tensor × CausalSelfAttention) :=
  (bl.lambdas.get? 0).bind (fun l0 => (bl.lambdas.get? 1).bind (fun l1 =>
    (tAdd (smul l0 x) (smul l1 x0)).bind (fun xg =>
      CausalSelfAttention.forward bl.attn (rmsNormLast xg) v1)))

/-- When the attention sublayer runs successfully on a supplied value
state `w`, the value state it returns is exactly `w`, unchanged. -/
noncomputable def V1KeptAttn (r : Option (Tensor × Tensor × CausalSelfAttention))
    (w : Tensor) : Prop :=
  ∀ q, r = some q → q.2.1 = w

/-- When the attention sublayer runs successfully with no supplied value
state, the value state it returns is its own raw value projection. -/
noncomputable def V1RawAttn (r : Option (Tensor × Tensor × CausalSelfAttention))
    (p : CausalSelfAttention) (x : Tensor) : Prop :=
  ∀ q, r = some q → some q.2.1 = rawValueState p x

/-- Supplying the raw value projection itself as the previous value state
is indistinguishable from supplying none: the blend then mixes `v` with
`v`, exactly as the seeding branch does. -/
noncomputable def BlendConsistent (p : CausalSelfAttention) (x : Tensor) : Prop :=
  ∀ v, rawValueState p x = some v →
    CausalSelfAttention.forward p x (some v) = CausalSelfAttention.forward p x none

/-- A block's returned value state is the one returned by its attention
sublayer. -/
noncomputable def BlockUsesAttnV1 (bl : Block) (x : Tensor) (v1 : Option Tensor)
    (x0 : Tensor) : Prop :=
  ∀ r, Block.forward bl x v1 x0 = some r →
    ∃ a, blockAttnCall bl x v1 x0 = some a ∧ r.2.1 = a.2.1

noncomputable def V1KeptEnc (r : Option (Tensor × Option Tensor × List Tensor × List Block))
    (w : Tensor) : Prop :=
  ∀ q, r = some q → q.2.1 = some w

noncomputable def V1KeptDec (r : Option (Tensor × Option Tensor × List Block))
    (w : Tensor) : Prop :=
  ∀ q, r = some q → q.2.1 = some w

/-- A successful encoder pass that starts with no value state ends with
the value state returned by its first block. -/
noncomputable def SeededByFirst (x0 : Tensor) (c i : ℕ) (hs : List Block) (x : Tensor)
    (skips : List Tensor) : Prop :=
  ∀ res, runEncoder x0 (c + 1) i hs x none skips = some res →
    ∃ fst, (hs.get? i).bind (fun b => Block.forward b x none x0) = some fst ∧
      res.2.1 = some fst.2.1

theorem attn_v1_of_some {p : CausalSelfAttention} {x : Tensor} {v1in : Option Tensor}
    {r : Tensor × Tensor × CausalSelfAttention}
    (h : CausalSelfAttention.forward p x v1in = some r) :
    ∃ d v, dims3 x = some d ∧ proj4 p.c_v d.1 d.2.1 p.n_head p.head_dim x = some v ∧
      r.2.1 = v1in.getD v := by
  rw [attn_forward_eq] at h
  simp only [Option.bind_eq_some, Option.some.injEq] at h
  obtain ⟨d, hd, q, hq, k, hk, v, hv, rest⟩ := h
  refine ⟨d, v, hd, hv, ?_⟩
  obtain ⟨v1v, hv1v, vb, hvb, qr, hqr, kr, hkr, qt, hqt, kt, hkt, vt, hvt, y, hy, yt, hyt,
    ym, hym, out, hout, hfin⟩ := rest
  rw [← hfin]

theorem block_v1_of_some {bl : Block} {x : Tensor} {v1 : Option Tensor} {x0 : Tensor}
    {r : Tensor × Tensor × Block} (h : Block.forward bl x v1 x0 = some r) :
    ∃ a, blockAttnCall bl x v1 x0 = some a ∧ r.2.1 = a.2.1 := by
  rw [block_forward_eq] at h
  simp only [Option.bind_eq_some, Option.some.injEq] at h
  obtain ⟨l0, hl0, l1, hl1, xg, hxg, a, ha, x2, hx2, x3, hx3, x4, hx4, hfin⟩ := h
  refine ⟨a, ?_, ?_⟩
  · simp only [blockAttnCall, hl0, hl1, hxg, Option.some_bind]
    exact ha
  · rw [← hfin]

theorem block_keeps {bl : Block} {x : Tensor} {w : Tensor} {x0 : Tensor}
    {r : Tensor × Tensor × Block} (h : Block.forward bl x (some w) x0 = some r) :
    r.2.1 = w := by
  obtain ⟨a, ha, hr⟩ := block_v1_of_some h
  simp only [blockAttnCall, Option.bind_eq_some] at ha
  obtain ⟨l0, hl0, l1, hl1, xg, hxg, hatt⟩ := ha
  obtain ⟨d, v, _, _, hv1⟩ := attn_v1_of_some hatt
  rw [hr, hv1, Option.getD_some]

theorem runEncoder_keeps (x0 : Tensor) :
    ∀ (c : ℕ) {i : ℕ} {hs : List Block} {x : Tensor} {w : Tensor} {skips : List Tensor}
      {res : Tensor × Option Tensor × List Tensor × List Block},
      runEncoder x0 c i hs x (some w) skips = some res → res.2.1 = some w := by
  intro c
  induction c with
  | zero =>
      intro i hs x w skips res he
      rw [runEncoder_zero] at he
      injection he with he2
      rw [← he2]
  | succ c ih =>
      intro i hs x w skips res he
      rw [runEncoder_succ, Option.bind_eq_some] at he
      obtain ⟨b, hb, he⟩ := he
      rw [Option.bind_eq_some] at he
      obtain ⟨r, hf, he⟩ := he
      have hkeep := block_keeps hf
      rw [hkeep] at he
      exact ih he

theorem runDecoder_keeps (x0 : Tensor) (off : ℕ) (sw : List ℝ) :
    ∀ (c : ℕ) {i : ℕ} {hs : List Block} {x : Tensor} {w : Tensor} {skips : List Tensor}
      {res : Tensor × Option Tensor × List Block},
      runDecoder x0 off sw c i hs x (some w) skips = some res → res.2.1 = some w := by
  intro c
  induction c with
  | zero =>
      intro i hs x w skips res he
      rw [runDecoder_zero] at he
      injection he with he2
      rw [← he2]
  | succ c ih =>
      intro i hs x w skips res he
      rw [runDecoder_succ, Option.bind_eq_some] at he
      obtain ⟨pr, hp, he⟩ := he
      rw [Option.bind_eq_some] at he
      obtain ⟨wgt, hw, he⟩ := he
      rw [Option.bind_eq_some] at he
      obtain ⟨b, hb, he⟩ := he
      rw [Option.bind_eq_some] at he
      obtain ⟨xs, hxs, he⟩ := he
      rw [Option.bind_eq_some] at he
      obtain ⟨r, hf, he⟩ := he
      have hkeep := block_keeps hf
      rw [hkeep] at he
      exact ih he

end PT

namespace PT

/-- C1: value-state threading through one forward pass.  (1) If a prior
value state `w` is supplied, the attention sublayer returns exactly `w`,
unchanged.  (2) If none is supplied (the first block invoked), it returns
its own raw value projection.  (3) Supplying the raw projection itself is
indistinguishable from supplying none, which is how the blend
`v = (1-lamb)*v + lamb*v1_prev` degenerates in the seeding branch.
(4) A block returns the value state its attention sublayer returns.
(5,6) The encoder and decoder loops thread a present value state through
every block without changing it — so every block after the first
consumes the same state.  (7) A successful encoder pass starting from no
value state ends holding the first block's returned value state, i.e.
the first block's raw value projection by (2) and (4). -/
theorem claim_C1 :
    (∀ (p : CausalSelfAttention) (x w : Tensor),
      V1KeptAttn (CausalSelfAttention.forward p x (some w)) w) ∧
    (∀ (p : CausalSelfAttention) (x : Tensor),
      V1RawAttn (CausalSelfAttention.forward p x none) p x) ∧
    (∀ (p : CausalSelfAttention) (x : Tensor), BlendConsistent p x) ∧
    (∀ (bl : Block) (x : Tensor) (v1 : Option Tensor) (x0 : Tensor),
      BlockUsesAttnV1 bl x v1 x0) ∧
    (∀ (x0 : Tensor) (c i : ℕ) (hs : List Block) (x : Tensor) (skips : List Tensor)
      (w : Tensor), V1KeptEnc (runEncoder x0 c i hs x (some w) skips) w) ∧
    (∀ (x0 : Tensor) (off : ℕ) (sw : List ℝ) (c i : ℕ) (hs : List Block) (x : Tensor)
      (skips : List Tensor) (w : Tensor),
      V1KeptDec (runDecoder x0 off sw c i hs x (some w) skips) w) ∧
    (∀ (x0 : Tensor) (c i : ℕ) (hs : List Block) (x : Tensor) (skips : List Tensor),
      SeededByFirst x0 c i hs x skips) := by
  refine ⟨?_, ?_, ?_, ?_, ?_, ?_, ?_⟩
  · intro p x w q hq
    obtain ⟨d, v, hd, hv, h1⟩ := attn_v1_of_some hq
    rw [h1, Option.getD_some]
  · intro p x q hq
    obtain ⟨d, v, hd, hv, h1⟩ := attn_v1_of_some hq
    rw [h1, Option.getD_none, rawValueState, hd, Option.some_bind, hv]
  · intro p x v hraw
    rw [rawValueState, Option.bind_eq_some] at hraw
    obtain ⟨d, hd, hv⟩ := hraw
    rw [attn_forward_eq, attn_forward_eq, hd]
    simp only [Option.some_bind]
    rw [hv]
    rfl
  · intro bl x v1 x0 r hr
    exact block_v1_of_some hr
  · intro x0 c i hs x skips w q hq
    exact runEncoder_keeps x0 c hq
  · intro x0 off sw c i hs x skips w q hq
    exact runDecoder_keeps x0 off sw c hq
  · intro x0 c i hs x skips res hres
    rw [runEncoder_succ, Option.bind_eq_some] at hres
    obtain ⟨b, hb, hres⟩ := hres
    rw [Option.bind_eq_some] at hres
    obtain ⟨fst, hf, hrun⟩ := hres
    refine ⟨fst, ?_, ?_⟩
    · rw [hb, Option.some_bind]
      exact hf
    · exact runEncoder_keeps x0 c hrun
end PT

namespace PT

/-! ## Skip-connection pairing (claim C2) -/

/-- Modelled from the spec's words for the refinement claim C2: instead
of popping a mutable stack, decoder step `j` (0-indexed) reads entry
`full.length - 1 - j` of the immutable list of encoder outputs, so the
encoder outputs are consumed in reverse order; everything else matches
`runDecoder`. -/
noncomputable def runDecoderSpec (x0 : Tensor) (off : ℕ) (sw : List ℝ) (full : List Tensor) :
    ℕ → ℕ → ℕ → List Block → Tensor → Option Tensor →
    Option (Tensor × Option Tensor × List Block)
  | 0, _, _, hs, x, v1 => some (x, v1, hs)
  | c + 1, i, j, hs, x, v1 =>
      (if j < full.length then full.get? (full.length - 1 - j) else none).bind (fun sk =>
        (sw.get? i).bind (fun w =>
          (hs.get? (off + i)).bind (fun b =>
            (tAdd x (smul w sk)).bind (fun xs =>
              (Block.forward b xs v1 x0).bind (fun r =>
                runDecoderSpec x0 off sw full c (i + 1) (j + 1)
                  (hs.set (off + i) r.2.2) r.1 (some r.2.1))))))

/-- `GPT.forward` with the decoder phase written the spec's way: the
skip entry of decoder step `i` is indexed directly as encoder output
`encoder_layers - 1 - i` instead of popped from a stack. -/
noncomputable def GPT.forwardSpecSkips (m : GPT) (idx : List (List ℕ)) :
    Option (Tensor × GPT) :=
  (embed m.wte m.config.n_embd idx).bind (fun emb =>
    (runEncoder (rmsNormLast emb) m.encoder_layers 0 m.h (rmsNormLast emb) none []).bind
      (fun er =>
        (runDecoderSpec (rmsNormLast emb) m.encoder_layers m.skip_weights er.2.2.1
            m.decoder_layers 0 0 er.2.2.2 er.1 er.2.1).bind (fun dr =>
          (linear m.lm_head (rmsNormLast dr.1)).bind (fun lg =>
            some (softcap lg, { m with h := dr.2.2 })))))

theorem popLast_eq_map {α : Type} (l : List α) :
    popLast l = l.getLast?.map (fun a => (a, l.dropLast)) := by
  unfold popLast
  cases l.getLast? <;> rfl

theorem bind_congrAll {α β : Type} {o : Option α} {f g : α → Option β}
    (h : ∀ a, f a = g a) : o.bind f = o.bind g := by
  cases o <;> simp [h]

theorem take_getLast?_eq {α : Type} (l : List α) (k : ℕ) (h1 : 0 < k) (h2 : k ≤ l.length) :
    (l.take k).getLast? = l.get? (k - 1) := by
  rw [List.getLast?_eq_getElem?, List.length_take, List.getElem?_take, List.get?_eq_getElem?]
  have hm : min k l.length = k := by omega
  rw [hm, if_pos (by omega)]

theorem take_dropLast_eq {α : Type} (l : List α) (k : ℕ) (hk : k ≤ l.length) :
    (l.take k).dropLast = l.take (k - 1) := by
  rw [List.dropLast_eq_take, List.take_take, List.length_take]
  congr 1
  omega

theorem runDecoder_eq_spec (x0 : Tensor) (off : ℕ) (sw : List ℝ) (full : List Tensor) :
    ∀ (c : ℕ) {i j : ℕ} {hs : List Block} {x : Tensor} {v1 : Option Tensor},
      j ≤ full.length →
      runDecoder x0 off sw c i hs x v1 (full.take (full.length - j)) =
        runDecoderSpec x0 off sw full c i j hs x v1 := by
  intro c
  induction c with
  | zero =>
      intro i j hs x v1 hj
      rfl
  | succ c ih =>
      intro i j hs x v1 hj
      rw [runDecoder_succ, runDecoderSpec, popLast_eq_map]
      by_cases hjl : j < full.length
      · rw [take_getLast?_eq full (full.length - j) (by omega) (by omega),
          take_dropLast_eq full (full.length - j) (by omega), if_pos hjl]
        have h1 : full.length - 1 - j = full.length - (j + 1) := by omega
        have h2 : full.length - j - 1 = full.length - (j + 1) := by omega
        rw [h1, h2]
        cases hget : full.get? (full.length - (j + 1)) with
        | none => rfl
        | some sk =>
            simp only [Option.map_some', Option.some_bind]
            apply bind_congrAll
            intro w
            apply bind_congrAll
            intro b
            apply bind_congrAll
            intro xs
            apply bind_congrAll
            intro r
            exact ih (by omega)
      · have hz : full.length - j = 0 := by omega
        rw [hz, if_neg hjl]
        simp

end PT

namespace PT

/-- C2: the stack-based decoder pass of `GPT.forward` — push each encoder
block output, pop the most recent entry at each decoder step, scale it by
`skip_weights[i]`, and add it before running decoder block `i` — is
exactly the spec's pairing: decoder step `i` consumes encoder output
`encoder_layers - 1 - i`.  In particular with `n_layer = 6`
(`encoder_layers = 3`) decoder step 0 consumes block 2's output and
decoder step 2 consumes block 0's output. -/
theorem claim_C2 :
    ∀ (m : GPT) (idx : List (List ℕ)), GPT.forward m idx = GPT.forwardSpecSkips m idx := by
  intro m idx
  rw [GPT.forward_eq]
  unfold GPT.forwardSpecSkips
  apply bind_congrAll
  intro emb
  apply bind_congrAll
  intro er
  congr 1
  have h := @runDecoder_eq_spec (rmsNormLast emb) m.encoder_layers m.skip_weights er.2.2.1
    m.decoder_layers 0 0 er.2.2.2 er.1 er.2.1 (by omega)
  rw [Nat.sub_zero, List.take_length] at h
  exact h

end PT

namespace PT

/-! ## Logit soft-cap bound (claim C5) -/

theorem tanh_bounds (y : ℝ) : -1 < Real.tanh y ∧ Real.tanh y < 1 := by
  have hc : 0 < Real.cosh y := Real.cosh_pos y
  have hs : Real.sinh y < Real.cosh y := Real.sinh_lt_cosh y
  have hn : Real.sinh (-y) < Real.cosh (-y) := Real.sinh_lt_cosh (-y)
  rw [Real.sinh_neg, Real.cosh_neg] at hn
  rw [Real.tanh_eq_sinh_div_cosh]
  constructor
  · rw [lt_div_iff₀ hc]
    linarith
  · rw [div_lt_one hc]
    exact hs

/-- Every data entry of a returned logits tensor lies strictly inside
`(-30, 30)`. -/
noncomputable def LogitsBounded (r : Option (Tensor × GPT)) : Prop :=
  ∀ lg m2, r = some (lg, m2) → ∀ z ∈ lg.data, -30 < z ∧ z < 30

/-- C5: for every model and every token input, every logit produced by a
successful forward pass lies strictly within `(-30, 30)`, because the
final projection output is mapped through `30 * tanh(z / 30)`. -/
theorem claim_C5 : ∀ (m : GPT) (idx : List (List ℕ)), LogitsBounded (GPT.forward m idx) := by
  intro m idx lg m2 hres z hz
  rw [GPT.forward_eq] at hres
  simp only [Option.bind_eq_some, Option.some.injEq, Prod.mk.injEq] at hres
  obtain ⟨emb, he, er, hr, dr, hd, out, ho, hcap, hm⟩ := hres
  rw [← hcap] at hz
  simp only [softcap, smul, tmap, List.map_map, List.mem_map] at hz
  obtain ⟨w, hw, hzw⟩ := hz
  obtain ⟨ht1, ht2⟩ := tanh_bounds (w / 30)
  rw [← hzw]
  constructor
  · simp only [Function.comp_apply]
    nlinarith
  · simp only [Function.comp_apply]
    nlinarith

end PT

namespace PT

/-! ## Pointwise lemmas for the rotary transform (claim C9) -/

theorem guard_pos {p : Prop} [Decidable p] (h : p) : (guard p : Option Unit) = some () := by
  unfold guard
  rw [if_pos h]
  rfl

theorem guard_neg {p : Prop} [Decidable p] (h : ¬p) : (guard p : Option Unit) = none := by
  unfold guard
  rw [if_neg h]
  rfl

theorem bcastRev_self : ∀ l : List ℕ, bcastRev l l = some l := by
  intro l
  induction l with
  | nil => rfl
  | cons a as ih => simp [bcastRev, ih]

theorem bcastShapes_self (s : List ℕ) : bcastShapes s s = some s := by
  simp [bcastShapes, bcastRev_self]

theorem idxOk4 {B T H D b t h i : ℕ} (hb : b < B) (ht : t < T) (hh : h < H) (hi : i < D) :
    IdxOk [B, T, H, D] [b, t, h, i] :=
  List.Forall₂.cons hb (List.Forall₂.cons ht (List.Forall₂.cons hh
    (List.Forall₂.cons hi List.Forall₂.nil)))

theorem bproj_self {s ix : List ℕ} (h : IdxOk s ix) : bproj s ix = ix := by
  have hlen : ix.length = s.length := List.Forall₂.length_eq h
  unfold bproj
  rw [hlen, Nat.sub_self, List.drop_zero]
  clear hlen
  induction h with
  | nil => rfl
  | cons h1 h2 ih =>
      rename_i i d is ds
      simp only [List.zipWith_cons_cons]
      rw [ih]
      congr 1
      by_cases hd : d = 1
      · rw [if_pos hd]
        omega
      · rw [if_neg hd]

theorem broadcastOp_self {f : ℝ → ℝ → ℝ} {a b : Tensor} (h : a.shape = b.shape) :
    broadcastOp f a b =
      some (ofFn a.shape (fun ix => f (tGet a (bproj a.shape ix)) (tGet b (bproj b.shape ix)))) := by
  unfold broadcastOp
  rw [← h, bcastShapes_self]
  rfl

theorem broadcastOp_self_all {f : ℝ → ℝ → ℝ} {a b : Tensor} {s : List ℕ}
    (ha : a.shape = s) (hb : b.shape = s) :
    ∃ r, broadcastOp f a b = some r ∧ r.shape = s ∧
      ∀ ix, IdxOk s ix → tGet r ix = f (tGet a ix) (tGet b ix) := by
  subst ha
  refine ⟨_, broadcastOp_self hb.symm, rfl, ?_⟩
  intro ix h
  rw [tGet_ofFn h, bproj_self h, hb, bproj_self h]

end PT

namespace PT

theorem getD_map_zero {f : ℝ → ℝ} (hf : f 0 = 0) (l : List ℝ) (n : ℕ) :
    (l.map f).getD n 0 = f (l.getD n 0) := by
  rcases Nat.lt_or_ge n l.length with h | h
  · rw [List.getD_eq_getElem _ _ (by simpa using h), List.getD_eq_getElem _ _ h,
      List.getElem_map]
  · rw [List.getD_eq_default _ _ (by simpa using h), List.getD_eq_default _ _ h, hf]

theorem tGet_tNeg (t : Tensor) (ix : List ℕ) : tGet (tNeg t) ix = -(tGet t ix) := by
  unfold tGet tNeg tmap
  exact getD_map_zero (by norm_num) _ _

theorem tNeg_shape (t : Tensor) : (tNeg t).shape = t.shape := rfl

theorem sliceLastTo_shape4 {x : Tensor} {B T H n : ℕ} (hx : x.shape = [B, T, H, n])
    (d : ℕ) (hd : d ≤ n) : (sliceLastTo x d).shape = [B, T, H, d] := by
  unfold sliceLastTo
  rw [ofFn_shape, hx]
  have hm : min d n = d := Nat.min_eq_left hd
  simp [hm]

theorem sliceLastFrom_shape4 {x : Tensor} {B T H n : ℕ} (hx : x.shape = [B, T, H, n])
    (d : ℕ) : (sliceLastFrom x d).shape = [B, T, H, n - d] := by
  unfold sliceLastFrom
  rw [ofFn_shape, hx]
  simp

theorem tGet_sliceLastTo {x : Tensor} {d : ℕ} {ix : List ℕ}
    (h : IdxOk (sliceLastTo x d).shape ix) :
    tGet (sliceLastTo x d) ix = tGet x ix := by
  unfold sliceLastTo at h ⊢
  exact tGet_ofFn h

theorem tGet_sliceLastFrom {x : Tensor} {d : ℕ} {ix : List ℕ}
    (h : IdxOk (sliceLastFrom x d).shape ix) :
    tGet (sliceLastFrom x d) ix = tGet x (setIdxLast ix (idxLast ix + d)) := by
  unfold sliceLastFrom at h ⊢
  exact tGet_ofFn h

theorem catDim3_same {y1 y2 : Tensor} {B T H d : ℕ} (h1 : y1.shape = [B, T, H, d])
    (h2 : y2.shape = [B, T, H, d]) :
    catDim3 y1 y2 = some (ofFn [B, T, H, d + d] (fun ix =>
      if ix.getD 3 0 < d then tGet y1 ix else tGet y2 (ix.set 3 (ix.getD 3 0 - d)))) := by
  unfold catDim3
  rw [h1, h2, guard_pos (by simp)]
  rfl

end PT

namespace PT

theorem tGet_sliceTo_at {x : Tensor} {d : ℕ} {s ix : List ℕ}
    (hs : (sliceLastTo x d).shape = s) (h : IdxOk s ix) :
    tGet (sliceLastTo x d) ix = tGet x ix := by
  subst hs
  unfold sliceLastTo at h ⊢
  exact tGet_ofFn h

theorem tGet_sliceFrom_at {x : Tensor} {d : ℕ} {s ix : List ℕ}
    (hs : (sliceLastFrom x d).shape = s) (h : IdxOk s ix) :
    tGet (sliceLastFrom x d) ix = tGet x (setIdxLast ix (idxLast ix + d)) := by
  subst hs
  unfold sliceLastFrom at h ⊢
  exact tGet_ofFn h

theorem apply_rotary_emb_eq (x cos sin : Tensor) :
    apply_rotary_emb x cos sin =
      (guard (x.shape.length = 4) : Option Unit).bind (fun _ =>
        (tMul (sliceLastTo x (x.shape.getD 3 0 / 2)) cos).bind (fun a =>
        (tMul (sliceLastFrom x (x.shape.getD 3 0 / 2)) sin).bind (fun b =>
        (tAdd a b).bind (fun y1 =>
        (tMul (sliceLastTo x (x.shape.getD 3 0 / 2)) (tNeg sin)).bind (fun a2 =>
        (tMul (sliceLastFrom x (x.shape.getD 3 0 / 2)) cos).bind (fun b2 =>
        (tAdd a2 b2).bind (fun y2 =>
        catDim3 y1 y2))))))) := rfl

end PT

namespace PT

/-- C9: the claim asserts `apply_rotary_emb` fails whenever the input is
not rank-4 or its last dimension is odd.  The rank-4 assert is real, but
no parity check exists: on a rank-4 input with (odd) last dimension 1 and
broadcastable phase tensors the function returns successfully (an empty
last axis), instead of failing. -/
theorem claim_C9_counterexample :
    apply_rotary_emb ⟨[1, 1, 1, 1], [0]⟩ ⟨[1, 1, 1, 1], [0]⟩ ⟨[1, 1, 1, 1], [0]⟩ =
      some ⟨[1, 1, 1, 0], []⟩ := rfl

/-- C9 (amended): `apply_rotary_emb` fails with a precondition violation
whenever its input is not rank-4 (the `assert x.ndim == 4`); the last
dimension's parity is not checked.  On a rank-4 input of even last
dimension `2d` with phase tensors of the matching sliced shape it
succeeds and returns the concatenation of `y1 = x1*cos + x2*sin` and
`y2 = x1*(-sin) + x2*cos`, where `x1, x2` are the two halves of the last
axis — stated pointwise on every in-range coordinate. -/
theorem claim_C9_amended :
    (∀ x cos sin : Tensor, x.shape.length ≠ 4 → apply_rotary_emb x cos sin = none) ∧
    (∀ (x cos sin : Tensor) (B T H d : ℕ),
      x.shape = [B, T, H, 2 * d] → cos.shape = [B, T, H, d] → sin.shape = [B, T, H, d] →
      ∃ res, apply_rotary_emb x cos sin = some res ∧ res.shape = [B, T, H, d + d] ∧
        ∀ b t h i, b < B → t < T → h < H → i < d →
          tGet res [b, t, h, i] =
              tGet x [b, t, h, i] * tGet cos [b, t, h, i] +
                tGet x [b, t, h, i + d] * tGet sin [b, t, h, i] ∧
          tGet res [b, t, h, i + d] =
              tGet x [b, t, h, i] * (-tGet sin [b, t, h, i]) +
                tGet x [b, t, h, i + d] * tGet cos [b, t, h, i]) := by
  constructor
  · intro x cos sin h
    rw [apply_rotary_emb_eq, guard_neg h]
    rfl
  · intro x cos sin B T H d hx hc hs
    have hd2 : x.shape.getD 3 0 / 2 = d := by
      rw [hx]
      show 2 * d / 2 = d
      omega
    have hx1s : (sliceLastTo x d).shape = [B, T, H, d] :=
      sliceLastTo_shape4 hx d (by omega)
    have hx2s : (sliceLastFrom x d).shape = [B, T, H, d] := by
      have h2 := sliceLastFrom_shape4 hx d
      rw [show 2 * d - d = d from by omega] at h2
      exact h2
    have hns : (tNeg sin).shape = [B, T, H, d] := by rw [tNeg_shape, hs]
    obtain ⟨a1, ea1, sa1, ga1⟩ :=
      broadcastOp_self_all (f := (· * ·)) hx1s hc
    obtain ⟨b1, eb1, sb1, gb1⟩ :=
      broadcastOp_self_all (f := (· * ·)) hx2s hs
    obtain ⟨y1, ey1, sy1, gy1⟩ :=
      broadcastOp_self_all (f := (· + ·)) sa1 sb1
    obtain ⟨a2, ea2, sa2, ga2⟩ :=
      broadcastOp_self_all (f := (· * ·)) hx1s hns
    obtain ⟨b2, eb2, sb2, gb2⟩ :=
      broadcastOp_self_all (f := (· * ·)) hx2s hc
    obtain ⟨y2, ey2, sy2, gy2⟩ :=
      broadcastOp_self_all (f := (· + ·)) sa2 sb2
    rw [apply_rotary_emb_eq, hd2, guard_pos (by rw [hx]; rfl), Option.some_bind]
    unfold tMul tAdd
    rw [ea1, Option.some_bind, eb1, Option.some_bind, ey1, Option.some_bind,
      ea2, Option.some_bind, eb2, Option.some_bind, ey2, Option.some_bind,
      catDim3_same sy1 sy2]
    refine ⟨_, rfl, rfl, ?_⟩
    intro b t h i hb ht hh hi
    constructor
    · rw [tGet_ofFn (idxOk4 hb ht hh (show i < d + d by omega))]
      show (if i < d then tGet y1 [b, t, h, i]
        else tGet y2 ([b, t, h, i].set 3 (i - d))) = _
      rw [if_pos hi, gy1 _ (idxOk4 hb ht hh hi), ga1 _ (idxOk4 hb ht hh hi),
        gb1 _ (idxOk4 hb ht hh hi),
        tGet_sliceTo_at hx1s (idxOk4 hb ht hh hi),
        tGet_sliceFrom_at hx2s (idxOk4 hb ht hh hi)]
      rfl
    · rw [tGet_ofFn (idxOk4 hb ht hh (show i + d < d + d by omega))]
      show (if i + d < d then tGet y1 [b, t, h, i + d]
        else tGet y2 ([b, t, h, i + d].set 3 (i + d - d))) = _
      rw [if_neg (by omega), show i + d - d = i from by omega,
        show ([b, t, h, i + d].set 3 i : List ℕ) = [b, t, h, i] from rfl,
        gy2 _ (idxOk4 hb ht hh hi), ga2 _ (idxOk4 hb ht hh hi),
        gb2 _ (idxOk4 hb ht hh hi),
        tGet_sliceTo_at hx1s (idxOk4 hb ht hh hi),
        tGet_sliceFrom_at hx2s (idxOk4 hb ht hh hi), tGet_tNeg]
      rfl

end PT

namespace PT

/-- C9 witness: the amended theorem applied to a rank-1 tensor (assert
fires) and to a concrete rank-4 tensor of last dimension 2 with
matching phase tensors. -/
theorem claim_C9_witness :
    (([2] : List ℕ).length ≠ 4) ∧
    (apply_rotary_emb ⟨[2], [0, 0]⟩ ⟨[1], [0]⟩ ⟨[1], [0]⟩ = none) ∧
    (∃ res, apply_rotary_emb ⟨[1, 1, 1, 2], [1, 2]⟩ ⟨[1, 1, 1, 1], [3]⟩
        ⟨[1, 1, 1, 1], [4]⟩ = some res ∧ res.shape = [1, 1, 1, 1 + 1] ∧
      ∀ b t h i, b < 1 → t < 1 → h < 1 → i < 1 →
        tGet res [b, t, h, i] =
            tGet (⟨[1, 1, 1, 2], [1, 2]⟩ : Tensor) [b, t, h, i] *
                tGet (⟨[1, 1, 1, 1], [3]⟩ : Tensor) [b, t, h, i] +
              tGet (⟨[1, 1, 1, 2], [1, 2]⟩ : Tensor) [b, t, h, i + 1] *
                tGet (⟨[1, 1, 1, 1], [4]⟩ : Tensor) [b, t, h, i] ∧
        tGet res [b, t, h, i + 1] =
            tGet (⟨[1, 1, 1, 2], [1, 2]⟩ : Tensor) [b, t, h, i] *
                (-tGet (⟨[1, 1, 1, 1], [4]⟩ : Tensor) [b, t, h, i]) +
              tGet (⟨[1, 1, 1, 2], [1, 2]⟩ : Tensor) [b, t, h, i + 1] *
                tGet (⟨[1, 1, 1, 1], [3]⟩ : Tensor) [b, t, h, i]) :=
  ⟨by decide, claim_C9_amended.1 ⟨[2], [0, 0]⟩ ⟨[1], [0]⟩ ⟨[1], [0]⟩ (by decide),
   claim_C9_amended.2 ⟨[1, 1, 1, 2], [1, 2]⟩ ⟨[1, 1, 1, 1], [3]⟩ ⟨[1, 1, 1, 1], [4]⟩
     1 1 1 1 rfl rfl rfl⟩

end PT

namespace PT

/-! ## Repetition penalty rows (claims C10, C3) -/

theorem applyRepeatPenalty_eq (idx : List (List ℕ)) (rp : ℝ) (rows : List (List ℝ)) :
    applyRepeatPenalty idx rp rows = (idx.head?).bind (fun first =>
      some (List.zipWith (List.zipWith (fun l p => l / p)) rows
        (rows.map (fun row =>
          row.mapIdx (fun tId _ => if tId ∈ uniqueTokens first then rp else 1))))) := rfl

/-- C10: with a batch of two or more rows, the set of penalized token ids
is computed from the FIRST batch row only, yet the division is applied to
every row: entry `(b, t)` of the output is `logits[b][t] / rp` whenever
token id `t` occurs in row 0 of the context — regardless of what row `b`
of the context contains — and `logits[b][t]` otherwise. -/
theorem claim_C10 :
    ∀ (row0 : List ℕ) (rest : List (List ℕ)) (rp : ℝ) (rows : List (List ℝ))
      (b t : ℕ) (rowb : List ℝ) (lv : ℝ),
      rows[b]? = some rowb → rowb[t]? = some lv →
      ∃ out, applyRepeatPenalty (row0 :: rest) rp rows = some out ∧
        ∃ orow, out[b]? = some orow ∧
          orow[t]? = some (if t ∈ uniqueTokens row0 then lv / rp else lv) := by
  intro row0 rest rp rows b t rowb lv hb ht
  rw [applyRepeatPenalty_eq]
  simp only [List.head?_cons, Option.some_bind]
  refine ⟨_, rfl, ?_⟩
  refine ⟨List.zipWith (fun l p => l / p) rowb
    (rowb.mapIdx (fun tId _ => if tId ∈ uniqueTokens row0 then rp else 1)), ?_, ?_⟩
  · rw [List.getElem?_zipWith, hb, List.getElem?_map, hb]
    rfl
  · rw [List.getElem?_zipWith, ht, List.getElem?_mapIdx, ht]
    simp only [Option.map_some']
    by_cases hmem : t ∈ uniqueTokens row0
    · rw [if_pos hmem, if_pos hmem]
    · rw [if_neg hmem, if_neg hmem, div_one]

/-- C10 witness: row 1 of the batch contains only token 1, yet its logit
at token 0 — seen only in row 0 of the context — is divided by the
penalty. -/
theorem claim_C10_witness :
    ([[(1 : ℝ), 1], [1, 1]] : List (List ℝ))[1]? = some [1, 1] ∧
    ([(1 : ℝ), 1] : List ℝ)[0]? = some 1 ∧
    (∃ out, applyRepeatPenalty [[0], [1]] 2 [[(1 : ℝ), 1], [1, 1]] = some out ∧
      ∃ orow, out[1]? = some orow ∧
        orow[0]? = some (if 0 ∈ uniqueTokens [0] then (1 : ℝ) / 2 else 1)) :=
  ⟨rfl, rfl, claim_C10 [0] [[1]] 2 [[(1 : ℝ), 1], [1, 1]] 1 0 [1, 1] 1 rfl rfl⟩

end PT

namespace PT

/-! ## Top-k filtering (claim C8) -/

/-- C8: the claim asserts that exactly `min(top_k, vocab)` entries stay
finite.  With tied logits more can survive: filtering `[1, 1]` with
`top_k = 1` keeps both entries finite, because the mask removes only
entries strictly below the k-th largest value. -/
theorem claim_C8_counterexample :
    topKFilterRow 1 [(1 : ℝ), 1] = some [some 1, some 1] ∧
    List.countP (fun o => o.isSome) [some (1 : ℝ), some 1] = 2 ∧ min 1 2 = 1 := by
  refine ⟨?_, rfl, rfl⟩
  norm_num [topKFilterRow, List.insertionSort, List.orderedInsert]

/-- C8 (amended): with `1 ≤ top_k`, a nonempty logit row and no ties
(pairwise-distinct logits), the filter keeps only entries not strictly
below the `min(top_k, n)`-th largest value and exactly `min(top_k, n)`
entries remain finite; `top_k` is clamped to the row length. -/
theorem claim_C8_amended :
    ∀ (k : ℕ) (row : List ℝ), 1 ≤ k → row ≠ [] → row.Nodup →
      ∃ out, topKFilterRow k row = some out ∧
        out.countP (fun o => o.isSome) = min k row.length := by
  intro k row hk hne hnd
  have hperm : (List.insertionSort (· ≤ ·) row).Perm row := List.perm_insertionSort _ row
  have hlen : (List.insertionSort (· ≤ ·) row).length = row.length := hperm.length_eq
  have hn : 1 ≤ row.length := by
    cases row
    · exact absurd rfl hne
    · simp
  have hsortle : List.Sorted (· ≤ ·) (List.insertionSort (· ≤ ·) row) :=
    List.sorted_insertionSort _ row
  have hsnd : (List.insertionSort (· ≤ ·) row).Nodup := (hperm.nodup_iff).mpr hnd
  have hslt : List.Pairwise (· < ·) (List.insertionSort (· ≤ ·) row) :=
    (List.Pairwise.and hsortle hsnd).imp (fun hab => lt_of_le_of_ne hab.1 hab.2)
  have hjlt : row.length - min k row.length < (List.insertionSort (· ≤ ·) row).length := by
    omega
  have hidx : (List.insertionSort (· ≤ ·) row).length - 1 - (min k row.length - 1) =
      row.length - min k row.length := by omega
  have hget : ((List.insertionSort (· ≤ ·) row).reverse)[min k row.length - 1]? =
      some ((List.insertionSort (· ≤ ·) row).get ⟨row.length - min k row.length, hjlt⟩) := by
    rw [List.getElem?_reverse (by omega), hidx, List.getElem?_eq_getElem (by omega),
      List.get_eq_getElem]
  unfold topKFilterRow
  rw [if_neg (by omega), List.get?_eq_getElem?, hget]
  refine ⟨_, rfl, ?_⟩
  set thr := (List.insertionSort (· ≤ ·) row).get ⟨row.length - min k row.length, hjlt⟩
    with hthr
  have hpair := List.pairwise_iff_getElem.mp hslt
  have hthr2 : thr = (List.insertionSort (· ≤ ·) row)[row.length - min k row.length] := by
    rw [hthr, List.get_eq_getElem]
  rw [List.countP_map, ← hperm.countP_eq,
    ← List.take_append_drop (row.length - min k row.length)
      (List.insertionSort (· ≤ ·) row), List.countP_append]
  have htake : List.countP ((fun o => o.isSome) ∘ fun x => if x < thr then none else some x)
      (List.take (row.length - min k row.length) (List.insertionSort (· ≤ ·) row)) = 0 := by
    rw [List.countP_eq_zero]
    intro a ha
    obtain ⟨i, hi, hEq⟩ := List.mem_iff_getElem.mp ha
    have hi2 : i < row.length - min k row.length := by
      have h3 := hi
      simp only [List.length_take] at h3
      omega
    have hlt2 := hpair i (row.length - min k row.length) (by omega) hjlt hi2
    rw [List.getElem_take] at hEq
    rw [← hEq]
    simp only [Function.comp_apply]
    rw [if_pos (by rw [hthr2]; exact hlt2)]
    simp
  have hdrop : List.countP ((fun o => o.isSome) ∘ fun x => if x < thr then none else some x)
      (List.drop (row.length - min k row.length) (List.insertionSort (· ≤ ·) row)) =
      min k row.length := by
    have hall : ∀ a ∈ List.drop (row.length - min k row.length)
        (List.insertionSort (· ≤ ·) row),
        ((fun (o : Option ℝ) => o.isSome) ∘ fun x =>
          if x < thr then none else some x) a = true := by
      intro a ha
      obtain ⟨i, hi, hEq⟩ := List.mem_iff_getElem.mp ha
      rw [List.getElem_drop] at hEq
      have hnotlt : ¬ a < thr := by
        rcases Nat.eq_zero_or_pos i with h0 | h0
        · subst h0
          rw [← hEq, hthr2]
          simp only [Nat.add_zero]
          exact lt_irrefl _
        · have hgt := hpair (row.length - min k row.length)
            (row.length - min k row.length + i) hjlt
            (by
              have h4 := hi
              simp only [List.length_drop] at h4
              omega) (by omega)
          rw [← hEq, hthr2]
          exact not_lt_of_gt hgt
      simp only [Function.comp_apply]
      rw [if_neg hnotlt]
      rfl
    rw [List.countP_eq_length.mpr hall, List.length_drop, hlen]
    omega
  rw [htake, hdrop, Nat.zero_add]

/-- C8 witness: the amended theorem applied to a distinct two-logit row
with `top_k = 1`. -/
theorem claim_C8_witness :
    (1 ≤ 1) ∧ ([(2 : ℝ), 1] ≠ []) ∧ ([(2 : ℝ), 1] : List ℝ).Nodup ∧
    (∃ out, topKFilterRow 1 [(2 : ℝ), 1] = some out ∧
      out.countP (fun o => o.isSome) = min 1 ([(2 : ℝ), 1] : List ℝ).length) :=
  ⟨le_refl 1, by simp, by norm_num, claim_C8_amended 1 [(2 : ℝ), 1] (le_refl 1)
    (by simp) (by norm_num)⟩

end PT

namespace PT

/-! ## Repetition penalty vs. sampling probabilities (claim C3) -/

/-- One row of the repetition-penalty step: divide the logit at each
token id seen in the context row by `rp`, others by 1. -/
noncomputable def penRow (ctx : List ℕ) (rp : ℝ) (row : List ℝ) : List ℝ :=
  List.zipWith (fun l p => l / p) row
    (row.mapIdx (fun tId _ => if tId ∈ uniqueTokens ctx then rp else 1))

/-- The batched penalty of `generate` is `penRow` of the first context
row applied to every logit row. -/
theorem applyRepeatPenalty_rows (first : List ℕ) (rest : List (List ℕ)) (rp : ℝ)
    (rows : List (List ℝ)) :
    applyRepeatPenalty (first :: rest) rp rows = some (rows.map (penRow first rp)) := by
  rw [applyRepeatPenalty_eq]
  simp only [List.head?_cons, Option.some_bind, Option.some.injEq]
  induction rows with
  | nil => rfl
  | cons r rs ih => simp only [List.map_cons, List.zipWith_cons_cons, ih, penRow]

/-- The sampling probability that `generate` (without top-k) assigns to
token `t` after the repetition penalty with factor `rp`. -/
noncomputable def probAt (ctx : List ℕ) (rp : ℝ) (row : List ℝ) (t : ℕ) : ℝ :=
  (softmaxMasked ((penRow ctx rp row).map some)).getD t 0

theorem penRow_getElem {ctx : List ℕ} {r : ℝ} {row : List ℝ} {t : ℕ} {c : ℝ}
    (h : row[t]? = some c) :
    (penRow ctx r row)[t]? = some (c / (if t ∈ uniqueTokens ctx then r else 1)) := by
  unfold penRow
  rw [List.getElem?_zipWith, h, List.getElem?_mapIdx, h]
  rfl

theorem penRow_length (ctx : List ℕ) (r : ℝ) (row : List ℝ) :
    (penRow ctx r row).length = row.length := by
  unfold penRow
  rw [List.length_zipWith, List.length_mapIdx, min_self]

theorem probAt_eq {ctx : List ℕ} {r : ℝ} {row : List ℝ} {t : ℕ} {c : ℝ}
    (h : row[t]? = some c) :
    probAt ctx r row t = Real.exp (c / (if t ∈ uniqueTokens ctx then r else 1)) /
      ((penRow ctx r row).map Real.exp).sum := by
  unfold probAt softmaxMasked
  rw [List.getD_eq_getElem?_getD, List.getElem?_map, List.getElem?_map, penRow_getElem h]
  simp only [Option.map_some', Option.getD_some]
  rw [List.map_map]
  rfl

theorem probAt_ratio {ctx : List ℕ} {r : ℝ} {row : List ℝ} {j u : ℕ} {c : ℝ}
    (hj : j ∈ uniqueTokens ctx) (hu : u ∉ uniqueTokens ctx)
    (hcj : row[j]? = some c) (hcu : row[u]? = some c) :
    probAt ctx r row j / probAt ctx r row u = Real.exp (c / r) / Real.exp c := by
  have hS : 0 < ((penRow ctx r row).map Real.exp).sum := by
    apply List.sum_pos
    · intro x hx
      obtain ⟨v, hv, hvx⟩ := List.mem_map.mp hx
      rw [← hvx]
      exact Real.exp_pos v
    · have hlt : j < row.length := (List.getElem?_eq_some.mp hcj).1
      intro hnil
      rw [List.map_eq_nil_iff] at hnil
      have hpl := penRow_length ctx r row
      rw [hnil] at hpl
      simp only [List.length_nil] at hpl
      omega
  rw [probAt_eq hcj, probAt_eq hcu, if_pos hj, if_neg hu,
    div_div_div_comm, div_self (ne_of_gt hS), div_one, div_one c]

/-- C3: the claim asserts a strict decrease of the penalized token's
relative probability for every shared pre-penalty logit, including zero
and negative ones.  At logit 0 the penalty `0 / rp = 0` changes nothing:
with logits `[0, 0]`, token 0 in context and token 1 unseen, raising the
penalty from 2 to 3 leaves the probability of token 0 relative to token
1 exactly equal, not strictly smaller. -/
theorem claim_C3_counterexample :
    ¬ (probAt [0] 3 [(0 : ℝ), 0] 0 / probAt [0] 3 [(0 : ℝ), 0] 1 <
        probAt [0] 2 [(0 : ℝ), 0] 0 / probAt [0] 2 [(0 : ℝ), 0] 1) := by
  rw [probAt_ratio (by decide) (by decide) rfl rfl,
    probAt_ratio (by decide) (by decide) rfl rfl]
  norm_num

/-- C3 (amended): division by the penalty decreases the penalized
token's post-softmax probability relative to an unseen token of equal
pre-penalty logit strictly monotonically in `repeat_penalty` when that
shared logit is positive (at zero it is unchanged, and at negative
logits the direction reverses — the source applies the penalty by
division).  First conjunct ties `probAt` to the batched penalty step of
the generation loop. -/
theorem claim_C3_amended :
    (∀ (first : List ℕ) (rest : List (List ℕ)) (rp : ℝ) (rows : List (List ℝ)),
      applyRepeatPenalty (first :: rest) rp rows = some (rows.map (penRow first rp))) ∧
    (∀ (ctx : List ℕ) (row : List ℝ) (j u : ℕ) (c r1 r2 : ℝ),
      j ∈ uniqueTokens ctx → u ∉ uniqueTokens ctx →
      row[j]? = some c → row[u]? = some c →
      0 < c → 1 < r1 → r1 < r2 →
      probAt ctx r2 row j / probAt ctx r2 row u <
        probAt ctx r1 row j / probAt ctx r1 row u) := by
  refine ⟨applyRepeatPenalty_rows, ?_⟩
  intro ctx row j u c r1 r2 hj hu hcj hcu hc hr1 hr12
  rw [probAt_ratio hj hu hcj hcu, probAt_ratio hj hu hcj hcu]
  have hlt : c / r2 < c / r1 := div_lt_div_of_pos_left hc (by linarith) hr12
  have hexp : Real.exp (c / r2) < Real.exp (c / r1) := Real.exp_lt_exp.mpr hlt
  have hpos : 0 < Real.exp c := Real.exp_pos c
  exact div_lt_div_of_pos_right hexp hpos

end PT

namespace PT

/-- C3 witness: the amended monotonicity applied at logits `[1, 1]`,
context `[0]`, penalties 2 < 4. -/
theorem claim_C3_witness :
    (0 ∈ uniqueTokens [0]) ∧ (1 ∉ uniqueTokens [0]) ∧
    (([(1 : ℝ), 1] : List ℝ)[0]? = some 1) ∧ (([(1 : ℝ), 1] : List ℝ)[1]? = some 1) ∧
    ((0 : ℝ) < 1) ∧ ((1 : ℝ) < 2) ∧ ((2 : ℝ) < 4) ∧
    (probAt [0] 4 [(1 : ℝ), 1] 0 / probAt [0] 4 [(1 : ℝ), 1] 1 <
      probAt [0] 2 [(1 : ℝ), 1] 0 / probAt [0] 2 [(1 : ℝ), 1] 1) :=
  ⟨by decide, by decide, rfl, rfl, by norm_num, by norm_num, by norm_num,
   claim_C3_amended.2 [0] [(1 : ℝ), 1] 0 1 1 2 4 (by decide) (by decide) rfl rfl
     (by norm_num) (by norm_num) (by norm_num)⟩

end PT

namespace PT

/-! ## Shape totality of the forward pass (claim C7), operator level -/

theorem dims3_eq {t : Tensor} {a b c : ℕ} (h : t.shape = [a, b, c]) :
    dims3 t = some (a, b, c) := by
  unfold dims3
  rw [h]

theorem dims4_eq {t : Tensor} {a b c d : ℕ} (h : t.shape = [a, b, c, d]) :
    dims4 t = some (a, b, c, d) := by
  unfold dims4
  rw [h]

theorem view_some {t : Tensor} {s : List ℕ} (h : t.shape.prod = s.prod) :
    view t s = some ⟨s, t.data⟩ := by
  unfold view
  rw [if_pos h]

theorem linear_eq (W : List (List ℝ)) (t : Tensor) :
    linear W t =
      (guard (t.shape ≠ [] ∧ ∀ r ∈ W, r.length = t.shape.getLastD 0) : Option Unit).bind
        (fun _ => some (ofFn (t.shape.dropLast ++ [W.length]) (fun ix =>
          (Finset.range (t.shape.getLastD 0)).sum (fun c =>
            tGet t (setIdxLast ix c) * (W.getD (idxLast ix) []).getD c 0)))) := rfl

theorem linear_some {W : List (List ℝ)} {t : Tensor}
    (hne : t.shape ≠ []) (hW : ∀ r ∈ W, r.length = t.shape.getLastD 0) :
    linear W t = some (ofFn (t.shape.dropLast ++ [W.length]) (fun ix =>
      (Finset.range (t.shape.getLastD 0)).sum (fun c =>
        tGet t (setIdxLast ix c) * (W.getD (idxLast ix) []).getD c 0))) := by
  rw [linear_eq, guard_pos ⟨hne, hW⟩, Option.some_bind]

theorem rmsNormLast_shape (t : Tensor) : (rmsNormLast t).shape = t.shape := rfl

theorem smul_shape (a : ℝ) (t : Tensor) : (smul a t).shape = t.shape := rfl

theorem softcap_shape (t : Tensor) : (softcap t).shape = t.shape := rfl

theorem proj4_some {W : List (List ℝ)} {x : Tensor} {B T C nh hd : ℕ}
    (hx : x.shape = [B, T, C]) (hWl : W.length = C) (hW : ∀ r ∈ W, r.length = C)
    (hprod : nh * hd = C) :
    ∃ u, proj4 W B T nh hd x = some u ∧ u.shape = [B, T, nh, hd] := by
  unfold proj4
  rw [linear_some (by rw [hx]; simp) (by rw [hx]; simpa using hW)]
  simp only [Option.bind_eq_bind, Option.some_bind]
  have hpr : (ofFn (x.shape.dropLast ++ [W.length]) (fun ix =>
      (Finset.range (x.shape.getLastD 0)).sum (fun c =>
        tGet x (setIdxLast ix c) * (W.getD (idxLast ix) []).getD c 0))).shape.prod =
      ([B, T, nh, hd] : List ℕ).prod := by
    rw [ofFn_shape, hx, hWl]
    show B * (T * (C * 1)) = B * (T * (nh * (hd * 1)))
    rw [← hprod]
    ring
  rw [view_some hpr]
  exact ⟨_, rfl, rfl⟩

theorem transpose12_some {t : Tensor} {a b c d : ℕ} (h : t.shape = [a, b, c, d]) :
    ∃ u, transpose12 t = some u ∧ u.shape = [a, c, b, d] := by
  unfold transpose12
  rw [dims4_eq h]
  exact ⟨_, rfl, rfl⟩

theorem broadcastOp_some_of_bcast {f : ℝ → ℝ → ℝ} {a b : Tensor} {s : List ℕ}
    (h : bcastShapes a.shape b.shape = some s) :
    ∃ r, broadcastOp f a b = some r ∧ r.shape = s := by
  unfold broadcastOp
  rw [h]
  exact ⟨_, rfl, rfl⟩

theorem bcast4 (B T H d : ℕ) : bcastShapes [B, T, H, d] [1, T, 1, d] = some [B, T, H, d] := by
  by_cases hB : B = 1 <;> by_cases hH : H = 1 <;>
    simp [bcastShapes, bcastRev, hB, hH]

theorem sdpaCausal_some {q k v : Tensor} {B H T D Dv : ℕ}
    (hq : q.shape = [B, H, T, D]) (hk : k.shape = [B, H, T, D])
    (hv : v.shape = [B, H, T, Dv]) :
    ∃ y, sdpaCausal q k v = some y ∧ y.shape = [B, H, T, Dv] := by
  unfold sdpaCausal
  rw [dims4_eq hq, dims4_eq hk, dims4_eq hv]
  simp only [Option.bind_eq_bind, Option.some_bind]
  rw [guard_pos (by simp)]
  simp only [Option.bind_eq_bind, Option.some_bind]
  exact ⟨_, rfl, rfl⟩

end PT

namespace PT

/-! ## Elementwise and broadcast operator totality -/

theorem tmap_shape (f : ℝ → ℝ) (t : Tensor) : (tmap f t).shape = t.shape := rfl

theorem tAdd_some_of_same {a b : Tensor} {s : List ℕ} (ha : a.shape = s) (hb : b.shape = s) :
    ∃ r, tAdd a b = some r ∧ r.shape = s := by
  obtain ⟨r, h1, h2, _⟩ := broadcastOp_self_all (f := (· + ·)) ha hb
  exact ⟨r, h1, h2⟩

theorem tMul_some_of_bcast {a b : Tensor} {s : List ℕ}
    (h : bcastShapes a.shape b.shape = some s) :
    ∃ r, tMul a b = some r ∧ r.shape = s :=
  broadcastOp_some_of_bcast h

theorem linear_total {W : List (List ℝ)} {t : Tensor}
    (hne : t.shape ≠ []) (hW : ∀ r ∈ W, r.length = t.shape.getLastD 0) :
    ∃ u, linear W t = some u ∧ u.shape = t.shape.dropLast ++ [W.length] :=
  ⟨_, linear_some hne hW, ofFn_shape _ _⟩

theorem mlp_forward_eq (q : MLP) (x : Tensor) :
    MLP.forward q x =
      (linear q.c_fc x).bind (fun a =>
        linear q.c_proj (tmap (fun z => max z 0 ^ 2) a)) := rfl

/-! ## Shapes of the rotary phase tables -/

theorem tableTensor_shape_of {tab : List (List ℝ)} {T L : ℕ}
    (hlen : tab.length = T) (hhead : (tab.head?.map List.length).getD 0 = L) :
    (tableTensor tab).shape = [1, T, 1, L] := by
  unfold tableTensor
  rw [hlen, hhead]

theorem freqsFor_length (invf : List ℝ) (T : ℕ) : (freqsFor invf T).length = T := by
  simp [freqsFor]

theorem freqsFor_head {invf : List ℝ} {T : ℕ} (hT : 0 < T) :
    (freqsFor invf T).head? = some (invf.map (fun f => ((0 : ℕ) : ℝ) * f)) := by
  obtain ⟨k, rfl⟩ : ∃ k, T = k + 1 := ⟨T - 1, by omega⟩
  rw [freqsFor, List.range_succ_eq_map]
  rfl

theorem freshCos_table_shape (invf : List ℝ) {T : ℕ} (hT : 0 < T) :
    (tableTensor (freshCos invf T)).shape = [1, T, 1, invf.length] := by
  refine tableTensor_shape_of ?_ ?_
  · simp [freshCos, freqsFor_length]
  · rw [freshCos, List.head?_map, freqsFor_head hT]
    simp

theorem freshSin_table_shape (invf : List ℝ) {T : ℕ} (hT : 0 < T) :
    (tableTensor (freshSin invf T)).shape = [1, T, 1, invf.length] := by
  refine tableTensor_shape_of ?_ ?_
  · simp [freshSin, freqsFor_length]
  · rw [freshSin, List.head?_map, freqsFor_head hT]
    simp

/-- Well-formedness of the rotary state: the frequency vector has length
`L`, and whatever is cached was computed by the fresh-table formulas for
the cached sequence length (true initially, when nothing is cached, and
preserved by every call). -/
noncomputable def RotaryWF (st : Rotary) (L : ℕ) : Prop :=
  st.inv_freq.length = L ∧
  ∀ n, st.seq_len_cached = some n →
    st.cos_cached = freshCos st.inv_freq n ∧ st.sin_cached = freshSin st.inv_freq n

theorem rotary_forward_tables {st : Rotary} {L T : ℕ} (h : RotaryWF st L) (hT : 0 < T) :
    RotaryWF (Rotary.forward st T).1 L ∧
    (tableTensor (Rotary.forward st T).2.1).shape = [1, T, 1, L] ∧
    (tableTensor (Rotary.forward st T).2.2).shape = [1, T, 1, L] := by
  obtain ⟨hlen, hcache⟩ := h
  unfold Rotary.forward
  by_cases hc : st.seq_len_cached = some T
  · rw [if_pos hc]
    obtain ⟨hcos, hsin⟩ := hcache T hc
    refine ⟨⟨hlen, hcache⟩, ?_, ?_⟩
    · rw [hcos, ← hlen]
      exact freshCos_table_shape _ hT
    · rw [hsin, ← hlen]
      exact freshSin_table_shape _ hT
  · rw [if_neg hc]
    refine ⟨⟨hlen, ?_⟩, ?_, ?_⟩
    · intro n hn
      injection hn with hn
      subst hn
      exact ⟨rfl, rfl⟩
    · rw [← hlen]
      exact freshCos_table_shape _ hT
    · rw [← hlen]
      exact freshSin_table_shape _ hT

/-! ## Shape totality of the rotary transform -/

theorem apply_rotary_shape {x cos sin : Tensor} {B T H n d : ℕ}
    (hx : x.shape = [B, T, H, n]) (hn : n = d + d)
    (hcos : cos.shape = [1, T, 1, d]) (hsin : sin.shape = [1, T, 1, d]) :
    ∃ y, apply_rotary_emb x cos sin = some y ∧ y.shape = [B, T, H, n] := by
  have hd2 : x.shape.getD 3 0 / 2 = d := by rw [hx]; simp; omega
  have h1 : (sliceLastTo x (x.shape.getD 3 0 / 2)).shape = [B, T, H, d] := by
    rw [hd2]; exact sliceLastTo_shape4 hx d (by omega)
  have h2 : (sliceLastFrom x (x.shape.getD 3 0 / 2)).shape = [B, T, H, d] := by
    rw [hd2, sliceLastFrom_shape4 hx d]
    have : n - d = d := by omega
    rw [this]
  rw [apply_rotary_emb_eq, guard_pos (by rw [hx]; rfl), Option.some_bind]
  obtain ⟨a, hva, hsa⟩ := tMul_some_of_bcast (a := sliceLastTo x (x.shape.getD 3 0 / 2))
    (b := cos) (by rw [h1, hcos]; exact bcast4 B T H d)
  rw [hva, Option.some_bind]
  obtain ⟨b, hvb, hsb⟩ := tMul_some_of_bcast (a := sliceLastFrom x (x.shape.getD 3 0 / 2))
    (b := sin) (by rw [h2, hsin]; exact bcast4 B T H d)
  rw [hvb, Option.some_bind]
  obtain ⟨y1, hvy1, hsy1⟩ := tAdd_some_of_same hsa hsb
  rw [hvy1, Option.some_bind]
  obtain ⟨a2, hva2, hsa2⟩ := tMul_some_of_bcast (a := sliceLastTo x (x.shape.getD 3 0 / 2))
    (b := tNeg sin) (by rw [h1, tNeg_shape, hsin]; exact bcast4 B T H d)
  rw [hva2, Option.some_bind]
  obtain ⟨b2, hvb2, hsb2⟩ := tMul_some_of_bcast (a := sliceLastFrom x (x.shape.getD 3 0 / 2))
    (b := cos) (by rw [h2, hcos]; exact bcast4 B T H d)
  rw [hvb2, Option.some_bind]
  obtain ⟨y2, hvy2, hsy2⟩ := tAdd_some_of_same hsa2 hsb2
  rw [hvy2, Option.some_bind]
  rw [catDim3_same hsy1 hsy2]
  refine ⟨_, rfl, ?_⟩
  rw [ofFn_shape, hn]

end PT

namespace PT

theorem view_total {t : Tensor} {s : List ℕ} (h : t.shape.prod = s.prod) :
    ∃ u, view t s = some u ∧ u.shape = s :=
  ⟨_, view_some h, rfl⟩

/-! ## Well-formed attention parameters and totality of the attention pass -/

/-- The shape constraints `CausalSelfAttention.__init__` establishes for an
embedding width `C`: the heads tile the embedding exactly, the head
dimension is even (so the two rotary halves match), all four projection
matrices are square `C × C`, and the rotary state is well formed with
`head_dim / 2` frequencies. -/
noncomputable def WFAttn (p : CausalSelfAttention) (C : ℕ) : Prop :=
  p.n_head * p.head_dim = C ∧
  p.head_dim % 2 = 0 ∧
  ((∀ r ∈ p.c_q, r.length = C) ∧ p.c_q.length = C) ∧
  ((∀ r ∈ p.c_k, r.length = C) ∧ p.c_k.length = C) ∧
  ((∀ r ∈ p.c_v, r.length = C) ∧ p.c_v.length = C) ∧
  ((∀ r ∈ p.c_proj, r.length = C) ∧ p.c_proj.length = C) ∧
  RotaryWF p.rotary (p.head_dim / 2)

theorem attn_total {p : CausalSelfAttention} {C : ℕ} {x : Tensor} {B T : ℕ}
    {v1in : Option Tensor}
    (hw : WFAttn p C) (hx : x.shape = [B, T, C]) (hT : 0 < T)
    (hv : v1in = none ∨ ∃ w, v1in = some w ∧ w.shape.prod = B * T * C) :
    ∃ r, CausalSelfAttention.forward p x v1in = some r ∧
      r.1.shape = [B, T, C] ∧ r.2.1.shape.prod = B * T * C ∧ WFAttn r.2.2 C := by
  obtain ⟨hprod, heven, ⟨hcq, hcql⟩, ⟨hck, hckl⟩, ⟨hcv, hcvl⟩, ⟨hcp, hcpl⟩, hrot⟩ := hw
  rw [attn_forward_eq, dims3_eq hx, Option.some_bind]
  dsimp only
  obtain ⟨q, hq, hqs⟩ := proj4_some (W := p.c_q) hx hcql hcq hprod
  rw [hq, Option.some_bind]
  obtain ⟨k, hk, hks⟩ := proj4_some (W := p.c_k) hx hckl hck hprod
  rw [hk, Option.some_bind]
  obtain ⟨v, hvv, hvs⟩ := proj4_some (W := p.c_v) hx hcvl hcv hprod
  rw [hvv, Option.some_bind]
  have hvp : v.shape.prod = B * T * C := by
    rw [hvs]
    simp [mul_assoc, hprod]
  obtain ⟨v1v, hv1v, hv1vs⟩ := view_total (t := v1in.getD v) (s := v.shape) (by
    rcases hv with h | ⟨w, hw2, hwp⟩
    · rw [h, Option.getD_none]
    · rw [hw2, Option.getD_some, hvp, hwp])
  rw [hv1v, Option.some_bind]
  obtain ⟨vb, hvb, hvbs⟩ := tAdd_some_of_same (a := smul (1 - p.lamb) v)
    (b := smul p.lamb v1v) (s := [B, T, p.n_head, p.head_dim])
    (by rw [smul_shape, hvs]) (by rw [smul_shape, hv1vs, hvs])
  rw [hvb, Option.some_bind]
  obtain ⟨hrot2, hcshape, hsshape⟩ := rotary_forward_tables (T := T) hrot hT
  obtain ⟨qr, hqr, hqrs⟩ := apply_rotary_shape (x := rmsNormLast q)
    (by rw [rmsNormLast_shape, hqs]) (by omega) hcshape hsshape
  rw [hqr, Option.some_bind]
  obtain ⟨kr, hkr, hkrs⟩ := apply_rotary_shape (x := rmsNormLast k)
    (by rw [rmsNormLast_shape, hks]) (by omega) hcshape hsshape
  rw [hkr, Option.some_bind]
  obtain ⟨qt, hqt, hqts⟩ := transpose12_some hqrs
  rw [hqt, Option.some_bind]
  obtain ⟨kt, hkt, hkts⟩ := transpose12_some hkrs
  rw [hkt, Option.some_bind]
  obtain ⟨vt, hvt, hvts⟩ := transpose12_some hvbs
  rw [hvt, Option.some_bind]
  obtain ⟨y, hy, hys⟩ := sdpaCausal_some hqts hkts hvts
  rw [hy, Option.some_bind]
  obtain ⟨yt, hyt, hyts⟩ := transpose12_some hys
  rw [hyt, Option.some_bind]
  obtain ⟨ym, hym, hyms⟩ := view_total (t := yt) (s := x.shape) (by
    rw [hyts, hx]
    simp [mul_assoc, hprod])
  rw [hym, Option.some_bind]
  have hyms3 : ym.shape = [B, T, C] := by rw [hyms, hx]
  obtain ⟨out, hout, houts⟩ := linear_total (W := p.c_proj)
    (by rw [hyms3]; simp)
    (by rw [hyms3]; simpa using hcp)
  rw [hout, Option.some_bind]
  refine ⟨_, rfl, ?_, ?_, ?_⟩
  · rw [houts, hyms3, hcpl]
    rfl
  · rcases hv with h | ⟨w, hw2, hwp⟩
    · rw [h, Option.getD_none]
      exact hvp
    · rw [hw2, Option.getD_some]
      exact hwp
  · exact ⟨hprod, heven, ⟨hcq, hcql⟩, ⟨hck, hckl⟩, ⟨hcv, hcvl⟩, ⟨hcp, hcpl⟩, hrot2⟩

end PT

namespace PT

/-! ## Totality of the MLP and of a whole block -/

/-- Shape constraints `MLP.__init__` establishes: `c_fc` reads width-`C`
activations and `c_proj` maps the hidden width back to `C`. -/
noncomputable def WFMlp (q : MLP) (C : ℕ) : Prop :=
  (∀ r ∈ q.c_fc, r.length = C) ∧
  (∀ r ∈ q.c_proj, r.length = q.c_fc.length) ∧ q.c_proj.length = C

theorem mlp_total {q : MLP} {C : ℕ} {x : Tensor} {B T : ℕ}
    (hw : WFMlp q C) (hx : x.shape = [B, T, C]) :
    ∃ y, MLP.forward q x = some y ∧ y.shape = [B, T, C] := by
  obtain ⟨hfc, hproj, hprojl⟩ := hw
  rw [mlp_forward_eq]
  obtain ⟨a, ha, has⟩ := linear_total (W := q.c_fc)
    (by rw [hx]; simp) (by rw [hx]; simpa using hfc)
  rw [ha, Option.some_bind]
  have has2 : a.shape = [B, T, q.c_fc.length] := by
    rw [has, hx]
    rfl
  obtain ⟨y, hy, hys⟩ := linear_total (W := q.c_proj)
    (t := tmap (fun z => max z 0 ^ 2) a)
    (by rw [tmap_shape, has2]; simp) (by rw [tmap_shape, has2]; simpa using hproj)
  rw [hy]
  refine ⟨y, rfl, ?_⟩
  rw [hys, tmap_shape, has2, hprojl]
  rfl

/-- Shape constraints `Block.__init__` establishes: a well-formed attention
sublayer, a well-formed MLP, and the 2-entry `lambdas` gate. -/
noncomputable def WFBlock (bl : Block) (C : ℕ) : Prop :=
  WFAttn bl.attn C ∧ WFMlp bl.mlp C ∧ bl.lambdas.length = 2

theorem block_total {bl : Block} {C : ℕ} {x x0 : Tensor} {v1 : Option Tensor} {B T : ℕ}
    (hw : WFBlock bl C) (hx : x.shape = [B, T, C]) (hx0 : x0.shape = [B, T, C]) (hT : 0 < T)
    (hv : v1 = none ∨ ∃ w, v1 = some w ∧ w.shape.prod = B * T * C) :
    ∃ r, Block.forward bl x v1 x0 = some r ∧
      r.1.shape = [B, T, C] ∧ r.2.1.shape.prod = B * T * C ∧ WFBlock r.2.2 C := by
  obtain ⟨hattn, hmlp, hlam⟩ := hw
  rw [block_forward_eq, List.get?_eq_get (by omega), Option.some_bind,
    List.get?_eq_get (by omega), Option.some_bind]
  obtain ⟨xg, hxg, hxgs⟩ := tAdd_some_of_same (a := smul (bl.lambdas.get ⟨0, by omega⟩) x)
    (b := smul (bl.lambdas.get ⟨1, by omega⟩) x0) (s := [B, T, C])
    (by rw [smul_shape, hx]) (by rw [smul_shape, hx0])
  rw [hxg, Option.some_bind]
  obtain ⟨a, ha, has, hap, haw⟩ := attn_total hattn
    (x := rmsNormLast xg) (by rw [rmsNormLast_shape, hxgs]) hT hv
  rw [ha, Option.some_bind]
  obtain ⟨x2, hx2, hx2s⟩ := tAdd_some_of_same (a := xg) (b := a.1) (s := [B, T, C]) hxgs has
  rw [hx2, Option.some_bind]
  obtain ⟨x3, hx3, hx3s⟩ := mlp_total hmlp (x := rmsNormLast x2)
    (by rw [rmsNormLast_shape, hx2s])
  rw [hx3, Option.some_bind]
  obtain ⟨x4, hx4, hx4s⟩ := tAdd_some_of_same (a := x2) (b := x3) (s := [B, T, C]) hx2s hx3s
  rw [hx4, Option.some_bind]
  exact ⟨_, rfl, hx4s, hap, ⟨haw, hmlp, hlam⟩⟩

end PT

namespace PT

/-! ## Totality of the encoder and decoder loops -/

theorem popLast_some {α : Type} {l : List α} (h : l ≠ []) :
    popLast l = some (l.getLast h, l.dropLast) := by
  unfold popLast
  rw [List.getLast?_eq_getLast l h]

theorem runEncoder_total {x0 : Tensor} {B T C : ℕ} (hx0 : x0.shape = [B, T, C]) (hT : 0 < T) :
    ∀ (c : ℕ) {i : ℕ} {hs : List Block} {x : Tensor} {v1 : Option Tensor} {skips : List Tensor},
      (∀ bl ∈ hs, WFBlock bl C) → i + c ≤ hs.length → x.shape = [B, T, C] →
      (v1 = none ∨ ∃ w, v1 = some w ∧ w.shape.prod = B * T * C) →
      (∀ s ∈ skips, s.shape = [B, T, C]) →
      ∃ r, runEncoder x0 c i hs x v1 skips = some r ∧
        r.1.shape = [B, T, C] ∧
        (r.2.1 = none ∨ ∃ w, r.2.1 = some w ∧ w.shape.prod = B * T * C) ∧
        (∀ s ∈ r.2.2.1, s.shape = [B, T, C]) ∧
        r.2.2.1.length = skips.length + c ∧
        r.2.2.2.length = hs.length ∧ (∀ bl ∈ r.2.2.2, WFBlock bl C) := by
  intro c
  induction c with
  | zero =>
      intro i hs x v1 skips hwf hle hx hv hsk
      rw [runEncoder_zero]
      exact ⟨_, rfl, hx, hv, hsk, by simp, rfl, hwf⟩
  | succ c ih =>
      intro i hs x v1 skips hwf hle hx hv hsk
      have hi : i < hs.length := by omega
      rw [runEncoder_succ, List.get?_eq_get hi, Option.some_bind]
      obtain ⟨r, hr, hrs, hrp, hrw⟩ :=
        block_total (hwf _ (hs.get_mem _ _)) hx hx0 hT hv
      rw [hr, Option.some_bind]
      obtain ⟨r2, hr2, h1, h2, h3, h4, h5, h6⟩ :=
        @ih (i + 1) (hs.set i r.2.2) r.1 (some r.2.1) (skips ++ [r.1])
        (fun bl hbl => by
          rcases List.mem_or_eq_of_mem_set hbl with h | h
          · exact hwf bl h
          · rw [h]; exact hrw)
        (by rw [List.length_set]; omega) hrs (Or.inr ⟨_, rfl, hrp⟩)
        (fun s hs2 => by
          rcases List.mem_append.mp hs2 with h | h
          · exact hsk s h
          · rw [List.mem_singleton.mp h]; exact hrs)
      refine ⟨r2, hr2, h1, h2, h3, ?_, ?_, h6⟩
      · rw [h4]
        simp
        omega
      · rw [h5, List.length_set]

theorem runDecoder_total {x0 : Tensor} {B T C : ℕ} {off : ℕ} {sw : List ℝ}
    (hx0 : x0.shape = [B, T, C]) (hT : 0 < T) :
    ∀ (c : ℕ) {i : ℕ} {hs : List Block} {x : Tensor} {v1 : Option Tensor} {skips : List Tensor},
      (∀ bl ∈ hs, WFBlock bl C) → off + i + c ≤ hs.length → i + c ≤ sw.length →
      x.shape = [B, T, C] →
      (v1 = none ∨ ∃ w, v1 = some w ∧ w.shape.prod = B * T * C) →
      (∀ s ∈ skips, s.shape = [B, T, C]) → c ≤ skips.length →
      ∃ r, runDecoder x0 off sw c i hs x v1 skips = some r ∧
        r.1.shape = [B, T, C] ∧ r.2.2.length = hs.length ∧
        (∀ bl ∈ r.2.2, WFBlock bl C) := by
  intro c
  induction c with
  | zero =>
      intro i hs x v1 skips hwf hleh hlew hx hv hsk hskl
      rw [runDecoder_zero]
      exact ⟨_, rfl, hx, rfl, hwf⟩
  | succ c ih =>
      intro i hs x v1 skips hwf hleh hlew hx hv hsk hskl
      have hne : skips ≠ [] := by
        intro h0
        rw [h0] at hskl
        simp at hskl
      rw [runDecoder_succ, popLast_some hne, Option.some_bind,
        List.get?_eq_get (show i < sw.length by omega), Option.some_bind,
        List.get?_eq_get (show off + i < hs.length by omega), Option.some_bind]
      obtain ⟨xs, hxs, hxss⟩ := tAdd_some_of_same (a := x)
        (b := smul (sw.get ⟨i, by omega⟩) (skips.getLast hne)) (s := [B, T, C])
        hx (by rw [smul_shape]; exact hsk _ (List.getLast_mem hne))
      rw [hxs, Option.some_bind]
      obtain ⟨r, hr, hrs, hrp, hrw⟩ :=
        block_total (hwf _ (hs.get_mem _ _)) hxss hx0 hT hv
      rw [hr, Option.some_bind]
      obtain ⟨r2, hr2, h1, h2, h3⟩ :=
        @ih (i + 1) (hs.set (off + i) r.2.2) r.1 (some r.2.1) skips.dropLast
        (fun bl hbl => by
          rcases List.mem_or_eq_of_mem_set hbl with h | h
          · exact hwf bl h
          · rw [h]; exact hrw)
        (by rw [List.length_set]; omega) (by omega) hrs (Or.inr ⟨_, rfl, hrp⟩)
        (fun s hs2 => hsk s (List.Sublist.subset (List.dropLast_sublist skips) hs2))
        (by rw [List.length_dropLast]; omega)
      refine ⟨r2, hr2, h1, ?_, h3⟩
      rw [h2, List.length_set]

end PT

namespace PT

/-! ## Totality of the embedding lookup and of the whole forward pass -/

theorem embed_eq (wte : List (List ℝ)) (nEmbd : ℕ) (idx : List (List ℕ)) :
    embed wte nEmbd idx =
      (guard (∀ r ∈ idx, r.length = ((idx.head?.map List.length).getD 0)) : Option Unit).bind
        (fun _ => (idx.mapM (fun r : List ℕ => List.mapM (fun t => wte.get? t) r)).bind
          (fun rows => some ⟨[idx.length, ((idx.head?.map List.length).getD 0), nEmbd],
            (rows.map List.flatten).flatten⟩)) := rfl

theorem mapM_some {α β : Type} {f : α → Option β} :
    ∀ {l : List α}, (∀ a ∈ l, ∃ b, f a = some b) →
      ∃ out, l.mapM f = some out ∧ out.length = l.length := by
  intro l
  induction l with
  | nil => exact fun _ => ⟨[], rfl, rfl⟩
  | cons a l ih =>
      intro h
      obtain ⟨b, hb⟩ := h a (by simp)
      obtain ⟨out, hout, hlen⟩ := ih (fun x hx => h x (by simp [hx]))
      refine ⟨b :: out, ?_, by simp [hlen]⟩
      rw [List.mapM_cons, hb]
      show ((some b).bind fun x => (l.mapM f).bind fun z => some (x :: z)) = some (b :: out)
      rw [Option.some_bind, hout, Option.some_bind]

theorem embed_total {wte : List (List ℝ)} {nEmbd : ℕ} {idx : List (List ℕ)} {T : ℕ}
    (hrect : ∀ r ∈ idx, r.length = T)
    (hhead : ((idx.head?.map List.length).getD 0) = T)
    (htok : ∀ r ∈ idx, ∀ t ∈ r, t < wte.length) :
    ∃ e, embed wte nEmbd idx = some e ∧ e.shape = [idx.length, T, nEmbd] := by
  rw [embed_eq, hhead, guard_pos hrect, Option.some_bind]
  have hrow : ∀ r ∈ idx, ∃ b, (List.mapM (fun t => wte.get? t) r) = some b :=
    fun r hr =>
      (mapM_some (f := fun t => wte.get? t) (l := r)
        (fun t ht => ⟨_, List.get?_eq_get (htok r hr t ht)⟩)).imp (fun out h => h.1)
  obtain ⟨rows, hrows, _⟩ :=
    mapM_some (f := fun r : List ℕ => List.mapM (fun t => wte.get? t) r) (l := idx) hrow
  rw [hrows, Option.some_bind]
  exact ⟨_, rfl, rfl⟩

/-- Shape constraints `GPT.__init__` establishes: one well-formed block per
layer, one skip weight per decoder layer, a `vocab × n_embd` embedding
table, a `vocab × n_embd` output head, and a nonempty vocabulary. -/
noncomputable def WFGPT (m : GPT) : Prop :=
  m.h.length = m.config.n_layer ∧
  (∀ bl ∈ m.h, WFBlock bl m.config.n_embd) ∧
  m.skip_weights.length = m.decoder_layers ∧
  (∀ r ∈ m.wte, r.length = m.config.n_embd) ∧ m.wte.length = m.config.vocab_size ∧
  (∀ r ∈ m.lm_head, r.length = m.config.n_embd) ∧ m.lm_head.length = m.config.vocab_size ∧
  0 < m.config.vocab_size

theorem forward_total {m : GPT} {idx : List (List ℕ)} {T : ℕ}
    (hw : WFGPT m) (heven : m.config.n_layer % 2 = 0)
    (hrect : ∀ r ∈ idx, r.length = T)
    (hhead : ((idx.head?.map List.length).getD 0) = T)
    (hT : 0 < T)
    (htok : ∀ r ∈ idx, ∀ t ∈ r, t < m.config.vocab_size) :
    ∃ o, GPT.forward m idx = some o ∧
      o.1.shape = [idx.length, T, m.config.vocab_size] ∧
      WFGPT o.2 ∧ o.2.config = m.config ∧ o.2.wte = m.wte ∧
      o.2.skip_weights = m.skip_weights ∧ o.2.lm_head = m.lm_head := by
  obtain ⟨hhl, hblocks, hswl, hwte, hwtel, hlm, hlml, hvoc⟩ := hw
  rw [GPT.forward_eq]
  obtain ⟨e, he, hes⟩ := @embed_total m.wte m.config.n_embd idx T
    hrect hhead (fun r hr t ht => by rw [hwtel]; exact htok r hr t ht)
  rw [he, Option.some_bind]
  have hxs : (rmsNormLast e).shape = [idx.length, T, m.config.n_embd] := by
    rw [rmsNormLast_shape, hes]
  obtain ⟨er, her, her1, her2, her3, her4, her5, her6⟩ :=
    @runEncoder_total (rmsNormLast e) idx.length T m.config.n_embd hxs hT
      m.encoder_layers 0 m.h (rmsNormLast e) none [] hblocks
      (by rw [hhl]; unfold GPT.encoder_layers; omega) hxs (Or.inl rfl) (by simp)
  rw [her, Option.some_bind]
  have hskl : er.2.2.1.length = m.encoder_layers := by
    rw [her4]
    simp
  obtain ⟨dr, hdr, hdr1, hdr2, hdr3⟩ :=
    @runDecoder_total (rmsNormLast e) idx.length T m.config.n_embd m.encoder_layers
      m.skip_weights hxs hT m.decoder_layers 0 er.2.2.2 er.1 er.2.1 er.2.2.1
      her6
      (by rw [her5, hhl]; unfold GPT.decoder_layers GPT.encoder_layers; omega)
      (by rw [hswl]; omega) her1 her2 her3
      (by rw [hskl]; unfold GPT.decoder_layers GPT.encoder_layers; omega)
  rw [hdr, Option.some_bind]
  obtain ⟨lg, hlg, hlgs⟩ := linear_total (W := m.lm_head) (t := rmsNormLast dr.1)
    (by rw [rmsNormLast_shape, hdr1]; simp)
    (by rw [rmsNormLast_shape, hdr1]; simpa using hlm)
  rw [hlg, Option.some_bind]
  refine ⟨_, rfl, ?_, ?_, rfl, rfl, rfl, rfl⟩
  · rw [softcap_shape, hlgs, rmsNormLast_shape, hdr1, hlml]
    rfl
  · exact ⟨by rw [hdr2, her5, hhl], hdr3, hswl, hwte, hwtel, hlm, hlml, hvoc⟩

end PT

namespace PT

/-! ## Totality of the per-step sampling pipeline -/

theorem lastTimeRows_eq (t : Tensor) :
    lastTimeRows t = (dims3 t).bind (fun s =>
      if s.2.1 = 0 then none
      else some ((List.range s.1).map (fun b =>
        (List.range s.2.2).map (fun v => tGet t [b, s.2.1 - 1, v])))) := rfl

theorem lastTimeRows_some {t : Tensor} {B T V : ℕ} (h : t.shape = [B, T, V]) (hT : 0 < T) :
    lastTimeRows t = some ((List.range B).map (fun b =>
      (List.range V).map (fun v => tGet t [b, T - 1, v]))) := by
  rw [lastTimeRows_eq, dims3_eq h, Option.some_bind]
  dsimp only
  rw [if_neg (by omega)]

theorem lastTimeRows_some1 {t : Tensor} {T V : ℕ} (h : t.shape = [1, T, V]) (hT : 0 < T) :
    lastTimeRows t = some [(List.range V).map (fun v => tGet t [0, T - 1, v])] := by
  rw [lastTimeRows_some h hT]
  rfl

theorem topKFilterRow_some {k : ℕ} {row : List ℝ} (hk : 1 ≤ k) (hr : row ≠ []) :
    ∃ out, topKFilterRow k row = some out := by
  have hlen : 0 < row.length := List.length_pos.mpr hr
  have hkk : ¬ (min k row.length = 0) := by omega
  have hlt : min k row.length - 1 <
      ((List.insertionSort (· ≤ ·) row).reverse).length := by
    rw [List.length_reverse, (List.perm_insertionSort (· ≤ ·) row).length_eq]
    omega
  simp only [topKFilterRow]
  rw [if_neg hkk, List.get?_eq_get hlt]
  exact ⟨_, rfl⟩

theorem applyTopK_some {topK : Option ℕ} {rows : List (List ℝ)}
    (h : topK = none ∨ ∃ k, topK = some k ∧ 1 ≤ k)
    (hne : ∀ r ∈ rows, r ≠ []) :
    ∃ out, applyTopK topK rows = some out ∧ out.length = rows.length := by
  rcases h with h | ⟨k, hk, hk1⟩
  · rw [h]
    refine ⟨_, rfl, ?_⟩
    simp
  · rw [hk]
    have heq : applyTopK (some k) rows = rows.mapM (topKFilterRow k) := rfl
    rw [heq]
    exact mapM_some (fun r hr => topKFilterRow_some hk1 (hne r hr))

/-- The repetition-penalty step on a one-row batch returns one row of the
same length (whether or not the penalty branch is taken). -/
theorem rows2_exists (p : List ℕ) (rp : ℝ) (row : List ℝ) :
    ∃ row2 : List ℝ, penaltyStep [p] rp [row] = some [row2] ∧
      row2.length = row.length := by
  unfold penaltyStep
  by_cases hrp : 1 < rp
  · rw [if_pos hrp, applyRepeatPenalty_eq]
    simp only [List.head?_cons, Option.some_bind]
    refine ⟨_, rfl, ?_⟩
    simp
  · rw [if_neg hrp]
    exact ⟨row, rfl, rfl⟩

/-! ## The generation loop -/

theorem genLoop_zero (sampler : ℕ → List ℝ → ℕ) (temperature : ℝ) (topK : Option ℕ)
    (rp : ℝ) (eos : ℤ) (m : GPT) (idx : List (List ℕ)) :
    genLoop sampler temperature topK rp eos 0 m idx = some idx := rfl

theorem soleEntry_single {α : Type} (t : α) : soleEntry [t] = some t := rfl

theorem genLoop_succ (sampler : ℕ → List ℝ → ℕ) (temperature : ℝ) (topK : Option ℕ)
    (rp : ℝ) (eos : ℤ) (fuel : ℕ) (m : GPT) (idx : List (List ℕ)) :
    genLoop sampler temperature topK rp eos (fuel + 1) m idx =
      (GPT.forward m idx).bind (fun lm =>
      (lastTimeRows lm.1).bind (fun rows0 =>
      (penaltyStep idx rp (rows0.map (fun r => r.map (fun z => z / temperature)))).bind
        (fun rows2 =>
      (applyTopK topK rows2).bind (fun rowsF =>
      (soleEntry ((rowsF.map softmaxMasked).map (sampler fuel))).bind (fun t =>
        if (t : ℤ) = eos
        then some (List.zipWith (fun row u => row ++ [u]) idx
          ((rowsF.map softmaxMasked).map (sampler fuel)))
        else genLoop sampler temperature topK rp eos fuel lm.2
          (List.zipWith (fun row u => row ++ [u]) idx
            ((rowsF.map softmaxMasked).map (sampler fuel)))))))) := rfl

end PT

namespace PT

theorem GPT.generate_eq (m : GPT) (sampler : ℕ → List ℝ → ℕ) (idx : List (List ℕ))
    (n : ℕ) (temperature : ℝ) (topK : Option ℕ) (rp : ℝ) (eos : ℤ) :
    GPT.generate m sampler idx n temperature topK rp eos =
      genLoop sampler temperature topK rp eos n m idx := rfl

/-! ## Termination and prompt-prefix shape of generation (claim C7) -/

/-- C7: on a single-row prompt, with the shapes `GPT.__init__` constructs
(`WFGPT`), an even layer count (as in the shipped config; the odd case
aborts, see C4), a sampler that returns in-vocabulary ids (as
`torch.multinomial` over a vocabulary-sized probability row does), and a
positive `top_k` when one is given, `generate` terminates and returns the
prompt extended in place by the sampled tokens: at most `max_new_tokens`
of them, `eos` appearing nowhere before the last one; strictly fewer than
`max_new_tokens` only when generation stopped at a sampled `eos` (which is
kept as the last token); and exactly `max_new_tokens` whenever `eos` is
never sampled. -/
theorem claim_C7 :
    ∀ (fuel : ℕ) (m : GPT) (sampler : ℕ → List ℝ → ℕ) (p : List ℕ) (temperature rp : ℝ)
      (topK : Option ℕ) (eos : ℤ),
      WFGPT m → m.config.n_layer % 2 = 0 → p ≠ [] →
      (∀ t ∈ p, t < m.config.vocab_size) →
      (∀ s pr, sampler s pr < m.config.vocab_size) →
      (topK = none ∨ ∃ k, topK = some k ∧ 1 ≤ k) →
      ∃ new, GPT.generate m sampler [p] fuel temperature topK rp eos = some [p ++ new] ∧
        new.length ≤ fuel ∧
        (∀ t ∈ new.dropLast, (t : ℤ) ≠ eos) ∧
        (new.length < fuel → ∃ (q : List ℕ) (u : ℕ), new = q ++ [u] ∧ (u : ℤ) = eos) ∧
        ((∀ t ∈ new, (t : ℤ) ≠ eos) → new.length = fuel) := by
  intro fuel
  induction fuel with
  | zero =>
      intro m sampler p temperature rp topK eos hw heven hp htok hsamp htopk
      refine ⟨[], ?_, by simp, by simp, fun h => absurd h (by simp), fun _ => rfl⟩
      rw [GPT.generate_eq, genLoop_zero, List.append_nil]
  | succ fuel ih =>
      intro m sampler p temperature rp topK eos hw heven hp htok hsamp htopk
      have hvoc : 0 < m.config.vocab_size := hw.2.2.2.2.2.2.2
      have hTp : 0 < p.length := List.length_pos.mpr hp
      obtain ⟨o, ho, hos, howf, hocfg, howte, hoskip, holm⟩ :=
        @forward_total m [p] p.length hw heven
          (fun r hr => by rw [List.mem_singleton.mp hr])
          rfl hTp
          (fun r hr t ht => by rw [List.mem_singleton.mp hr] at ht; exact htok t ht)
      rw [GPT.generate_eq, genLoop_succ, ho]
      simp only [Option.some_bind]
      rw [lastTimeRows_some1 hos hTp]
      simp only [Option.some_bind, List.map_cons, List.map_nil]
      obtain ⟨row2, hrow2, hrow2len⟩ := rows2_exists p rp
        (((List.range m.config.vocab_size).map
          (fun v => tGet o.1 [0, p.length - 1, v])).map (fun z => z / temperature))
      rw [hrow2]
      simp only [Option.some_bind]
      have hlen2 : row2.length = m.config.vocab_size := by
        rw [hrow2len]
        simp
      have hne2 : ∀ r ∈ [row2], r ≠ [] := by
        intro r hr
        rw [List.mem_singleton.mp hr]
        intro h0
        rw [h0] at hlen2
        simp at hlen2
        omega
      obtain ⟨rowsF, hrowsF, hrowsFlen⟩ := applyTopK_some htopk hne2
      rw [hrowsF]
      simp only [Option.some_bind]
      have h1 : rowsF.length = 1 := by rw [hrowsFlen]; rfl
      obtain ⟨fr, hfr⟩ := List.length_eq_one.mp h1
      subst hfr
      simp only [List.map_cons, List.map_nil, soleEntry_single, Option.some_bind,
        List.zipWith_cons_cons, List.zipWith_nil_right]
      by_cases heos : ((sampler fuel (softmaxMasked fr) : ℕ) : ℤ) = eos
      · rw [if_pos heos]
        refine ⟨[sampler fuel (softmaxMasked fr)], rfl, ?_, by simp, ?_, ?_⟩
        · simp
        · exact fun _ => ⟨[], sampler fuel (softmaxMasked fr), by simp, heos⟩
        · exact fun h => absurd heos (h _ (by simp))
      · rw [if_neg heos]
        obtain ⟨new2, hgen2, hlen2b, hdrop2, hlt2, hall2⟩ :=
          ih o.2 sampler (p ++ [sampler fuel (softmaxMasked fr)]) temperature rp topK eos
            howf (by rw [hocfg]; exact heven) (by simp)
            (by
              rw [hocfg]
              intro t ht
              rcases List.mem_append.mp ht with h | h
              · exact htok t h
              · rw [List.mem_singleton.mp h]
                exact hsamp fuel _)
            (by rw [hocfg]; exact hsamp) htopk
        have hgen3 : genLoop sampler temperature topK rp eos fuel o.2
            [p ++ [sampler fuel (softmaxMasked fr)]] =
            some [(p ++ [sampler fuel (softmaxMasked fr)]) ++ new2] := by
          rw [← GPT.generate_eq]
          exact hgen2
        refine ⟨sampler fuel (softmaxMasked fr) :: new2, ?_, ?_, ?_, ?_, ?_⟩
        · rw [hgen3, List.append_assoc]
          exact rfl
        · simpa using Nat.succ_le_succ hlen2b
        · intro u hu
          cases hnew : new2 with
          | nil =>
              rw [hnew] at hu
              simp at hu
          | cons b l =>
              rw [hnew] at hu
              rw [show (sampler fuel (softmaxMasked fr) :: b :: l).dropLast =
                sampler fuel (softmaxMasked fr) :: (b :: l).dropLast from rfl] at hu
              rcases List.mem_cons.mp hu with h | h
              · rw [h]
                exact heos
              · rw [← hnew] at h
                exact hdrop2 u h
        · intro hlen
          have hl2 : new2.length < fuel := by
            simp only [List.length_cons] at hlen
            omega
          obtain ⟨q, u, hqu, hu⟩ := hlt2 hl2
          exact ⟨sampler fuel (softmaxMasked fr) :: q, u, by rw [hqu]; exact rfl, hu⟩
        · intro h
          have hfull := hall2 (fun t ht => h t (List.mem_cons_of_mem _ ht))
          simp only [List.length_cons, hfull]

end PT

namespace PT

/-- A minimal well-formed model: one-token vocabulary, width 1, no blocks. -/
noncomputable def gpt0 : GPT := ⟨⟨1, 0, 1, 1⟩, [[0]], [], [], [[0]]⟩

/-- C7 witness: the trivial model, a constant sampler, prompt `[0]`, no
`top_k`; every hypothesis of `claim_C7` is discharged at these inputs. -/
theorem claim_C7_witness :
    ∃ new, GPT.generate gpt0 (fun _ _ => 0) [[0]] 0 1 none 1 (-1) = some [[0] ++ new] ∧
      new.length ≤ 0 ∧ (∀ t ∈ new.dropLast, (t : ℤ) ≠ -1) ∧
      (new.length < 0 → ∃ (q : List ℕ) (u : ℕ), new = q ++ [u] ∧ (u : ℤ) = -1) ∧
      ((∀ t ∈ new, (t : ℤ) ≠ -1) → new.length = 0) :=
  claim_C7 0 gpt0 (fun _ _ => 0) [0] 1 1 none (-1)
    ⟨rfl, fun bl h => absurd h (List.not_mem_nil bl), rfl,
     fun r hr => by rw [List.mem_singleton.mp hr]; exact rfl, rfl,
     fun r hr => by rw [List.mem_singleton.mp hr]; exact rfl, rfl, Nat.one_pos⟩
    rfl (by simp) (fun t ht => by rw [List.mem_singleton.mp ht]; exact Nat.one_pos)
    (fun s pr => Nat.one_pos) (Or.inl rfl)

end PT
